import Mathlib

/-!
Verification of the archive-validation engine specification for the rkyv
test repository.  The repository ships only the engine's test suite
(`src/rkyv_test/src/validation.rs`); the engine itself (`check_archive`,
`ArchiveContext`, the per-type `CheckBytes` rules and the archive writer)
lives outside the sources, so every definition below is modelled from the
natural-language specification and cross-checked against the byte-exact
buffers appearing in the test suite.
-/

namespace Rkyv

/-- Modelled from the spec: the Validation Error taxonomy of section 7
(`OutOfBounds`, `Overrun`, `Misaligned`, `InvalidDiscriminant`,
`OverlappingClaim`, `CyclicClaim`, plus a `nested` kind for wrapped
custom failures). -/
inductive VError where
  | outOfBounds
  | overrun
  | misaligned
  | invalidDiscriminant
  | overlappingClaim
  | cyclicClaim
  | nested
deriving DecidableEq, Repr

/-- Modelled from the spec: a Claim is a half-open byte range
`[start, stop)` occupied by one sub-object. -/
structure Range where
  start : Nat
  stop : Nat
deriving DecidableEq, Repr

/-- Two half-open ranges intersect when each one starts before the other
ends. -/
def Range.intersects (r s : Range) : Bool :=
  decide (r.start < s.stop) && decide (s.start < r.stop)

/-- Modelled from the spec: the Archive Context threaded through one
validation call: an ordered ancestor stack of in-progress Claims and the
set of committed Claims (section 3, section 4.3). -/
structure ArchiveContext where
  ancestors : List Range
  committed : List Range
deriving DecidableEq, Repr

/-- All ranges currently known to the Claims Tracker, in-progress first. -/
def rangesOf (ctx : ArchiveContext) : List Range :=
  ctx.ancestors ++ ctx.committed

/-- Modelled from the spec: `enter(range)` of the Claims Tracker
(section 4.3).  The range is checked against the committed set first
(OverlappingClaim) and then against the ancestor stack (CyclicClaim);
if both checks pass it is pushed as in-progress. -/
def enter (ctx : ArchiveContext) (r : Range) : Except VError ArchiveContext :=
  if ctx.committed.any (fun s => r.intersects s) then .error .overlappingClaim
  else if ctx.ancestors.any (fun s => r.intersects s) then .error .cyclicClaim
  else .ok ⟨r :: ctx.ancestors, ctx.committed⟩

/-- Modelled from the spec: `exit(guard)` of the Claims Tracker
(section 4.3): pop the in-progress range off the ancestor stack and move
it into the committed set. -/
def exitClaim (ctx : ArchiveContext) : ArchiveContext :=
  match ctx.ancestors with
  | [] => ctx
  | r :: rest => ⟨rest, r :: ctx.committed⟩

/-- Modelled from the spec: the primitive validator for a fixed-width
scalar of width `W` and alignment `A` at position `P` (section 4.2,
with the error order fixed by the bounds examples of section 8):
a start position outside the buffer is OutOfBounds, a read crossing the
end is Overrun, and an unaligned position is Misaligned. -/
def checkPrim (len width align p : Nat) : Except VError Unit :=
  if len ≤ p then .error .outOfBounds
  else if len < p + width then .error .overrun
  else if p % align ≠ 0 then .error .misaligned
  else .ok ()

/-- The sublist of `width` bytes of `buf` starting at position `p`. -/
def extract (buf : List Nat) (p width : Nat) : List Nat :=
  (buf.drop p).take width

/-- Modelled from the spec: little-endian read of a 4-byte field
(section 6, binary layout contract).  Returns `none` when fewer than four
bytes are available. -/
def readLE4 (buf : List Nat) (p : Nat) : Option Nat :=
  match extract buf p 4 with
  | [a, b, c, d] => some (a + 256 * (b + 256 * (c + 256 * d)))
  | _ => none

/-- Little-endian encoding of a natural number below `2^32` as four
bytes. -/
def natLE4 (n : Nat) : List Nat :=
  [n % 256, n / 256 % 256, n / 65536 % 256, n / 16777216 % 256]

/-- Two's-complement encoding of a signed 4-byte integer, little-endian. -/
def encodeI32 (v : Int) : List Nat :=
  natLE4 (v % 4294967296).toNat

/-- Modelled from the spec: the stored 4-byte value of a Relative
Reference decodes as a little-endian two's-complement signed integer. -/
def toI32 (n : Nat) : Int :=
  if n < 2147483648 then (n : Int) else (n : Int) - 4294967296

/-- Modelled from the spec: the Position and Relative-Reference Resolver
(section 4.1): `resolve(fieldPosition, storedOffset)` yields
`fieldPosition + storedOffset` with overflow-checked (exact integer)
arithmetic, failing with OutOfBounds when the target falls outside
`[0, archive.length]`.  It takes no Archive Context: it has no side
effects and does not touch the Claims Tracker. -/
def resolve (len fieldPos : Nat) (stored : Int) : Except VError Nat :=
  if (fieldPos : Int) + stored < 0 then .error .outOfBounds
  else if (len : Int) < (fieldPos : Int) + stored then .error .outOfBounds
  else .ok ((fieldPos : Int) + stored).toNat

/-- Modelled from the spec: the universe of archived shapes the engine
validates (sections 4.4 and 4.5): fixed-width scalars (`u32`), owned text
(`str`, a Fat Reference), optional values, owning indirections (`boxed`),
homogeneous sequences (`vec`), records given as `recCons`/`recNil` chains
of declared fields (unit-like records are `recNil`), tagged unions given
as `enumCons`/`enumNil` chains of variant payloads, and the recursive
two-variant linked `node` type of the cycle-detection test
(`Nil` = tag 0, `Cons(Box<Node>)` = tag 1). -/
inductive Ty where
  | u32
  | str
  | option (t : Ty)
  | boxed (t : Ty)
  | vec (t : Ty)
  | node
  | recNil
  | recCons (t : Ty) (rest : Ty)
  | enumNil
  | enumCons (t : Ty) (rest : Ty)
deriving DecidableEq, Repr

/-- Modelled from the spec: static sizes of archived shapes (section 6):
scalars are 4 bytes, Relative References 4 bytes, Fat References 8 bytes,
an optional value is a 4-byte discriminant followed by its payload,
records lay out their fields in declaration order, and a tagged union is
a 4-byte discriminant followed by the largest variant payload. -/
def sizeOfTy : Ty → Nat
  | .u32 => 4
  | .str => 8
  | .option t => 4 + sizeOfTy t
  | .boxed _ => 4
  | .vec _ => 8
  | .node => 8
  | .recNil => 0
  | .recCons t rest => sizeOfTy t + sizeOfTy rest
  | .enumNil => 4
  | .enumCons t rest => max (4 + sizeOfTy t) (sizeOfTy rest)

/-- The record chain consisting of `n` copies of the element type `t`;
used to validate the `n` contiguous elements of a homogeneous
sequence. -/
def repTy (t : Ty) : Nat → Ty
  | 0 => .recNil
  | n + 1 => .recCons t (repTy t n)

/-- Number of variants of a tagged-union chain. -/
def numVariants : Ty → Nat
  | .enumCons _ rest => 1 + numVariants rest
  | _ => 0

/-- Payload type of the `i`-th variant of a tagged-union chain. -/
def variantTy : Ty → Nat → Ty
  | .enumCons t _, 0 => t
  | .enumCons _ rest, i + 1 => variantTy rest i
  | t, _ => t

/-- Typed views produced by a successful validation: scalars, borrowed
text, optional values, boxed values, sequences, record field lists
(`vcons`/`vnil` chains), tagged-union variants, and linked nodes. -/
inductive Value where
  | vu32 (n : Nat)
  | vstr (bs : List Nat)
  | vnone
  | vsome (v : Value)
  | vbox (v : Value)
  | vvec (elems : Value)
  | vnil
  | vcons (hd tl : Value)
  | vtag (tag : Nat) (payload : Value)
  | vnodeNil
  | vnodeCons (next : Value)
deriving DecidableEq, Repr

/-- Pending work items of the recursive walk: validate a shape at a
position, or dispatch a decoded union tag along a variant chain. -/
inductive Task where
  | ty (t : Ty) (p : Nat)
  | variants (ts : Ty) (tag : Nat) (p : Nat)
deriving DecidableEq, Repr

/-- Outcome of one step-bounded validation walk: out of fuel, failed with
the first error, or succeeded with a typed view and the final Archive
Context. -/
inductive ROut where
  | out
  | err (e : VError)
  | ok (v : Value) (ctx : ArchiveContext)
deriving DecidableEq, Repr

/-- Modelled from the spec: the recursive validation walk (sections 4.2,
4.4 and 4.5), written with an explicit fuel bound so that the model is a
total function; the cycle check of the Claims Tracker is what bounds the
real recursion.  Every composite claim is bounds-checked against the
buffer before it is entered, entered through the Claims Tracker, validated
and exited. -/
def run : Nat → List Nat → Task → ArchiveContext → ROut
  | 0, _, _, _ => .out
  | fuel + 1, buf, task, ctx =>
    match task with
    | .ty .u32 p =>
      match checkPrim buf.length 4 4 p with
      | .error e => .err e
      | .ok _ =>
        match readLE4 buf p with
        | none => .err .overrun
        | some n => .ok (.vu32 n) ctx
    | .ty .str p =>
      match checkPrim buf.length 8 4 p with
      | .error e => .err e
      | .ok _ =>
        match readLE4 buf p, readLE4 buf (p + 4) with
        | some rel, some cnt =>
          match resolve buf.length p (toI32 rel) with
          | .error e => .err e
          | .ok tgt =>
            if buf.length < tgt + cnt then .err .outOfBounds
            else
              match enter ctx ⟨tgt, tgt + cnt⟩ with
              | .error e => .err e
              | .ok ctx1 => .ok (.vstr (extract buf tgt cnt)) (exitClaim ctx1)
        | _, _ => .err .overrun
    | .ty (.option t) p =>
      match checkPrim buf.length 4 4 p with
      | .error e => .err e
      | .ok _ =>
        match readLE4 buf p with
        | none => .err .overrun
        | some d =>
          if d = 0 then .ok .vnone ctx
          else if d = 1 then
            match run fuel buf (.ty t (p + 4)) ctx with
            | .out => .out
            | .err e => .err e
            | .ok v ctx1 => .ok (.vsome v) ctx1
          else .err .invalidDiscriminant
    | .ty (.boxed t) p =>
      match checkPrim buf.length 4 4 p with
      | .error e => .err e
      | .ok _ =>
        match readLE4 buf p with
        | none => .err .overrun
        | some rel =>
          match resolve buf.length p (toI32 rel) with
          | .error e => .err e
          | .ok tgt =>
            if buf.length < tgt + sizeOfTy t then .err .outOfBounds
            else
              match enter ctx ⟨tgt, tgt + sizeOfTy t⟩ with
              | .error e => .err e
              | .ok ctx1 =>
                match run fuel buf (.ty t tgt) ctx1 with
                | .out => .out
                | .err e => .err e
                | .ok v ctx2 => .ok (.vbox v) (exitClaim ctx2)
    | .ty (.vec t) p =>
      match checkPrim buf.length 8 4 p with
      | .error e => .err e
      | .ok _ =>
        match readLE4 buf p, readLE4 buf (p + 4) with
        | some rel, some cnt =>
          match resolve buf.length p (toI32 rel) with
          | .error e => .err e
          | .ok tgt =>
            if buf.length < tgt + cnt * sizeOfTy t then .err .outOfBounds
            else
              match enter ctx ⟨tgt, tgt + cnt * sizeOfTy t⟩ with
              | .error e => .err e
              | .ok ctx1 =>
                match run fuel buf (.ty (repTy t cnt) tgt) ctx1 with
                | .out => .out
                | .err e => .err e
                | .ok vs ctx2 => .ok (.vvec vs) (exitClaim ctx2)
        | _, _ => .err .overrun
    | .ty .node p =>
      match checkPrim buf.length 4 4 p with
      | .error e => .err e
      | .ok _ =>
        match readLE4 buf p with
        | none => .err .overrun
        | some d =>
          if d = 0 then .ok .vnodeNil ctx
          else if d = 1 then
            match run fuel buf (.ty (.boxed .node) (p + 4)) ctx with
            | .out => .out
            | .err e => .err e
            | .ok v ctx1 => .ok (.vnodeCons v) ctx1
          else .err .invalidDiscriminant
    | .ty .recNil p =>
      if buf.length < p then .err .outOfBounds else .ok .vnil ctx
    | .ty (.recCons t rest) p =>
      match run fuel buf (.ty t p) ctx with
      | .out => .out
      | .err e => .err e
      | .ok v ctx1 =>
        match run fuel buf (.ty rest (p + sizeOfTy t)) ctx1 with
        | .out => .out
        | .err e => .err e
        | .ok vs ctx2 => .ok (.vcons v vs) ctx2
    | .ty .enumNil p =>
      match checkPrim buf.length 4 4 p with
      | .error e => .err e
      | .ok _ => .err .invalidDiscriminant
    | .ty (.enumCons t rest) p =>
      match checkPrim buf.length 4 4 p with
      | .error e => .err e
      | .ok _ =>
        match readLE4 buf p with
        | none => .err .overrun
        | some d =>
          match run fuel buf (.variants (.enumCons t rest) d (p + 4)) ctx with
          | .out => .out
          | .err e => .err e
          | .ok pv ctx1 => .ok (.vtag d pv) ctx1
    | .variants (.enumCons t _) 0 p => run fuel buf (.ty t p) ctx
    | .variants (.enumCons _ rest) (d + 1) p =>
      run fuel buf (.variants rest d p) ctx
    | .variants _ _ _ => .err .invalidDiscriminant

/-- Length of a `vcons`/`vnil` chain of values. -/
def vlen : Value → Nat
  | .vcons _ tl => 1 + vlen tl
  | _ => 0

/-- Pad a buffer with zero bytes up to the next 4-byte boundary. -/
def alignTo4 (buf : List Nat) : List Nat :=
  buf ++ List.replicate ((4 - buf.length % 4) % 4) 0

/-- Modelled from the spec: the resolver metadata produced by the
collaborator archive-writer while archiving the out-of-line dependents of
a value: the absolute target positions that the Relative References of
the value's inline representation will point at. -/
inductive Res where
  | scalar
  | strR (tgt : Nat)
  | noneR
  | someR (r : Res)
  | boxR (tgt : Nat) (r : Res)
  | vecR (tgt : Nat) (rs : Res)
  | nilR
  | consR (hd tl : Res)
  | tagR (r : Res)
deriving DecidableEq, Repr

/-- Modelled from the spec: the inline representation of a value placed
at position `pos` (section 6 binary layout contract): scalars are 4-byte
little-endian, owned text and sequences are Fat References (self-relative
offset then length/count), owning indirections are Relative References,
optional values are a 4-byte discriminant then the payload, records
concatenate their fields, and tagged unions are a 4-byte tag then the
active variant's payload padded to the union's size. -/
def inlineBytes (t : Ty) (v : Value) (r : Res) (pos : Nat) : List Nat :=
  match v, t, r with
  | .vu32 n, _, _ => natLE4 n
  | .vstr bs, _, .strR tgt =>
      encodeI32 ((tgt : Int) - (pos : Int)) ++ natLE4 bs.length
  | .vnone, .option t', _ => natLE4 0 ++ List.replicate (sizeOfTy t') 0
  | .vsome v', .option t', .someR r' => natLE4 1 ++ inlineBytes t' v' r' (pos + 4)
  | .vbox _, .boxed _, .boxR tgt _ => encodeI32 ((tgt : Int) - (pos : Int))
  | .vvec vs, .vec _, .vecR tgt _ =>
      encodeI32 ((tgt : Int) - (pos : Int)) ++ natLE4 (vlen vs)
  | .vnil, _, _ => []
  | .vcons v' vs, .recCons t' ts, .consR r' rs =>
      inlineBytes t' v' r' pos ++ inlineBytes ts vs rs (pos + sizeOfTy t')
  | .vtag i pv, ts, .tagR r' =>
      natLE4 i ++ inlineBytes (variantTy ts i) pv r' (pos + 4)
        ++ List.replicate (sizeOfTy ts - (4 + sizeOfTy (variantTy ts i))) 0
  | _, _, _ => []

/-- Modelled from the spec: the collaborator archive-writer's first pass
(section 6, collaborator interfaces): archive every out-of-line dependent
of a value (string bytes, boxed values, sequence elements), appending to
the buffer, and return the extended buffer together with the resolver
holding the dependents' positions.  Out-of-line objects are placed at
4-byte-aligned positions. -/
def writeDeps (t : Ty) (v : Value) (buf : List Nat) : List Nat × Res :=
  match v, t with
  | .vu32 _, _ => (buf, .scalar)
  | .vstr bs, _ => (buf ++ bs, .strR buf.length)
  | .vnone, _ => (buf, .noneR)
  | .vsome v', .option t' =>
      let p := writeDeps t' v' buf
      (p.1, .someR p.2)
  | .vbox v', .boxed t' =>
      let p := writeDeps t' v' buf
      let b2 := alignTo4 p.1
      (b2 ++ inlineBytes t' v' p.2 b2.length, .boxR b2.length p.2)
  | .vvec vs, .vec t' =>
      let p := writeDeps (repTy t' (vlen vs)) vs buf
      let b2 := alignTo4 p.1
      (b2 ++ inlineBytes (repTy t' (vlen vs)) vs p.2 b2.length,
        .vecR b2.length p.2)
  | .vnil, _ => (buf, .nilR)
  | .vcons v' vs, .recCons t' ts =>
      let p := writeDeps t' v' buf
      let q := writeDeps ts vs p.1
      (q.1, .consR p.2 q.2)
  | .vtag i pv, ts =>
      let p := writeDeps (variantTy ts i) pv buf
      (p.1, .tagR p.2)
  | _, _ => (buf, .scalar)

/-- Modelled from the spec: the collaborator archive-writer (section 8,
round-trip property): write all dependents into an empty buffer, pad to
the root type's alignment, then place the root value's inline
representation; returns the finished buffer and the root position. -/
def archive (t : Ty) (v : Value) : List Nat × Nat :=
  let p := writeDeps t v []
  let b2 := alignTo4 p.1
  (b2 ++ inlineBytes t v p.2 b2.length, b2.length)

/-- Record-tail chains: the shapes allowed as the rest of a
`recCons` field list. -/
def isRecTail : Ty → Bool
  | .recNil => true
  | .recCons _ rest => isRecTail rest
  | _ => false

/-- Well-typedness of a value with respect to an archived shape; these
are exactly the values the collaborator writer can archive at that
shape. -/
inductive HasTy : Value → Ty → Prop where
  | u32C : ∀ {n}, n < 4294967296 → HasTy (.vu32 n) .u32
  | strC : ∀ {bs : List Nat}, (∀ b ∈ bs, b < 256) → bs.length < 4294967296 →
      HasTy (.vstr bs) .str
  | noneC : ∀ {t}, HasTy .vnone (.option t)
  | someC : ∀ {v t}, HasTy v t → HasTy (.vsome v) (.option t)
  | boxC : ∀ {v t}, HasTy v t → HasTy (.vbox v) (.boxed t)
  | vecC : ∀ {vs t n}, HasTy vs (repTy t n) → n < 4294967296 →
      HasTy (.vvec vs) (.vec t)
  | unitC : HasTy .vnil .recNil
  | consC : ∀ {v t vs ts}, HasTy v t → HasTy vs ts → isRecTail ts = true →
      HasTy (.vcons v vs) (.recCons t ts)
  | tagZero : ∀ {pv t rest}, HasTy pv t → HasTy (.vtag 0 pv) (.enumCons t rest)
  | tagSucc : ∀ {i pv t rest}, HasTy (.vtag i pv) rest → i + 1 < 4294967296 →
      HasTy (.vtag (i + 1) pv) (.enumCons t rest)

/-- Fuel sufficient for the validation walk of a well-typed value. -/
def vfuel : Value → Nat
  | .vu32 _ => 1
  | .vstr _ => 1
  | .vnone => 1
  | .vsome v => 1 + vfuel v
  | .vbox v => 1 + vfuel v
  | .vvec vs => 1 + vfuel vs
  | .vnil => 1
  | .vcons v vs => 1 + max (vfuel v) (vfuel vs)
  | .vtag i pv => i + 2 + vfuel pv
  | .vnodeNil => 1
  | .vnodeCons v => 1 + vfuel v

/-- Modelled from the spec: the Validation Entry Point (section 4.6):
construct a fresh, empty context, claim the root object's range through
the tracker, run the root shape's rule, and release the root claim. -/
def checkArchive (fuel : Nat) (buf : List Nat) (t : Ty) (pos : Nat) : ROut :=
  match enter ⟨[], []⟩ ⟨pos, pos + sizeOfTy t⟩ with
  | .error e => .err e
  | .ok ctx =>
    match run fuel buf (.ty t pos) ctx with
    | .out => .out
    | .err e => .err e
    | .ok v ctx1 => .ok v (exitClaim ctx1)

/-- Pairwise non-intersection of a list of claims. -/
def pairwiseDisjointB : List Range → Bool
  | [] => true
  | r :: rs => rs.all (fun s => !(r.intersects s)) && pairwiseDisjointB rs

/-- The Claims Tracker invariant of section 3: every tracked claim stays
within `[0, len]` (starts are naturals, hence never before 0) and no two
tracked claims intersect. -/
def ctxInvB (len : Nat) (ctx : ArchiveContext) : Bool :=
  (rangesOf ctx).all (fun r => decide (r.stop ≤ len)) &&
    pairwiseDisjointB (rangesOf ctx)

/-- The synthetic well-formed archive of an optional string from the
`basic_functionality` test: discriminant 1, relative offset 8, length 11,
then the text. -/
def helloBuf : List Nat :=
  [1, 0, 0, 0, 8, 0, 0, 0, 11, 0, 0, 0,
   72, 101, 108, 108, 111, 32, 119, 111, 114, 108, 100]

/-- The byte content of the archived text in the synthetic buffers. -/
def helloBytes : List Nat :=
  [72, 101, 108, 108, 111, 32, 119, 111, 114, 108, 100]

/-- The synthetic archive of the `invalid_tags` test: identical to
`helloBuf` except its discriminant byte is 2. -/
def badTagBuf : List Nat :=
  [2, 0, 0, 0, 8, 0, 0, 0, 11, 0, 0, 0,
   72, 101, 108, 108, 111, 32, 119, 111, 114, 108, 100]

/-- The synthetic archive of the `overlapping_claims` test: two string
Fat References whose targets coincide on the same 11 bytes of text. -/
def pairBuf : List Nat :=
  [16, 0, 0, 0, 11, 0, 0, 0, 8, 0, 0, 0, 11, 0, 0, 0,
   72, 101, 108, 108, 111, 32, 119, 111, 114, 108, 100]

/-- The tuple-of-two-strings shape validated against `pairBuf`. -/
def pairTy : Ty := .recCons .str (.recCons .str .recNil)

/-- The synthetic archive of the `cycle_detection` test: node A at
position 0 is a `Cons` whose indirection points to node B at position 8,
and node B's indirection stores -12 and points back at node A. -/
def cycleBuf : List Nat :=
  [1, 0, 0, 0, 4, 0, 0, 0, 1, 0, 0, 0, 244, 255, 255, 255]

/-- The five-byte buffer of the bounds examples. -/
def fiveBuf : List Nat := [0, 1, 2, 3, 4]

/-- One buffer extends another: writers only ever append. -/
def BufExt (a b : List Nat) : Prop := ∃ s, b = a ++ s

/-- The claims that validating an archived value registers with the
Claims Tracker: one range per out-of-line object (string bytes, boxed
values, sequence element arrays), located at the writer's targets. -/
def claimsOf (t : Ty) (v : Value) (r : Res) : List Range :=
  match v, t, r with
  | .vstr bs, _, .strR tgt => [⟨tgt, tgt + bs.length⟩]
  | .vsome v', .option t', .someR r' => claimsOf t' v' r'
  | .vbox v', .boxed t', .boxR tgt r' =>
      ⟨tgt, tgt + sizeOfTy t'⟩ :: claimsOf t' v' r'
  | .vvec vs, .vec t', .vecR tgt rs =>
      ⟨tgt, tgt + vlen vs * sizeOfTy t'⟩ :: claimsOf (repTy t' (vlen vs)) vs rs
  | .vcons v' vs, .recCons t' ts, .consR r' rs =>
      claimsOf t' v' r' ++ claimsOf ts vs rs
  | .vtag i pv, ts, .tagR r' => claimsOf (variantTy ts i) pv r'
  | _, _, _ => []

/-- The out-of-line data of a value is correctly arranged in a buffer at
the resolver's targets: each target is aligned, in bounds, holds the
object's inline representation (or, for text, its bytes), and its own
dependents are recursively arranged. -/
def ArrangedDeps (buf : List Nat) (t : Ty) (v : Value) (r : Res) : Prop :=
  match v, t, r with
  | .vu32 _, _, .scalar => True
  | .vstr bs, _, .strR tgt =>
      extract buf tgt bs.length = bs ∧ tgt + bs.length ≤ buf.length
  | .vnone, _, .noneR => True
  | .vsome v', .option t', .someR r' => ArrangedDeps buf t' v' r'
  | .vbox v', .boxed t', .boxR tgt r' =>
      ArrangedDeps buf t' v' r' ∧
      extract buf tgt (sizeOfTy t') = inlineBytes t' v' r' tgt ∧
      tgt % 4 = 0 ∧ tgt + sizeOfTy t' ≤ buf.length
  | .vvec vs, .vec t', .vecR tgt rs =>
      ArrangedDeps buf (repTy t' (vlen vs)) vs rs ∧
      extract buf tgt (vlen vs * sizeOfTy t') =
        inlineBytes (repTy t' (vlen vs)) vs rs tgt ∧
      tgt % 4 = 0 ∧ tgt + vlen vs * sizeOfTy t' ≤ buf.length
  | .vnil, _, .nilR => True
  | .vcons v' vs, .recCons t' ts, .consR r' rs =>
      ArrangedDeps buf t' v' r' ∧ ArrangedDeps buf ts vs rs
  | .vtag i pv, ts, .tagR r' => ArrangedDeps buf (variantTy ts i) pv r'
  | _, _, _ => False

/-- The shape of the `derive_struct` test: a record of a scalar, a
string and a boxed sequence of strings. -/
def testTy : Ty :=
  .recCons .u32 (.recCons .str (.recCons (.boxed (.vec .str)) .recNil))

/-- The value archived in the `derive_struct` test. -/
def testVal : Value :=
  .vcons (.vu32 42)
    (.vcons (.vstr [104, 101, 108, 108, 111, 32, 119, 111, 114, 108, 100])
      (.vcons (.vbox (.vvec (.vcons (.vstr [121, 101, 115])
        (.vcons (.vstr [110, 111]) .vnil)))) .vnil))

/-! ### Basic lemmas about the Claims Tracker and the primitive checks -/

theorem intersects_symm (r s : Range) : r.intersects s = s.intersects r := by
  simp [Range.intersects, Bool.and_comm]

theorem enter_ok_of_disjoint (ctx : ArchiveContext) (r : Range)
    (h : ∀ s ∈ rangesOf ctx, r.intersects s = false) :
    enter ctx r = .ok ⟨r :: ctx.ancestors, ctx.committed⟩ := by
  have hc : ctx.committed.any (fun s => r.intersects s) = false := by
    rw [List.any_eq_false]
    intro s hs
    simp [h s (by simp [rangesOf, hs])]
  have ha : ctx.ancestors.any (fun s => r.intersects s) = false := by
    rw [List.any_eq_false]
    intro s hs
    simp [h s (by simp [rangesOf, hs])]
  simp [enter, hc, ha]

theorem checkPrim_ok_iff {len w a p : Nat} :
    checkPrim len w a p = .ok () ↔ p < len ∧ p + w ≤ len ∧ p % a = 0 := by
  unfold checkPrim
  split_ifs with h1 h2 h3 <;> simp_all

theorem checkArchive_eq (fuel : Nat) (buf : List Nat) (t : Ty) (pos : Nat) :
    checkArchive fuel buf t pos =
      match run fuel buf (.ty t pos) ⟨[⟨pos, pos + sizeOfTy t⟩], []⟩ with
      | .out => .out
      | .err e => .err e
      | .ok v ctx1 => .ok v (exitClaim ctx1) := rfl

/-! ### Claim theorems -/

/-- C1: the model's validation of the cyclic two-node buffer terminates
and fails with CyclicClaim for every sufficient fuel bound (the walk
visits node A, descends through its indirection to node B, and rejects
node B's back-reference immediately), and in general the Claims Tracker's
`enter` fails with CyclicClaim as soon as the entered range intersects any
range still on the ancestor stack while clearing the committed set. -/
theorem cycle_detected :
    (∀ fuel, 5 ≤ fuel → checkArchive fuel cycleBuf .node 0 = .err .cyclicClaim) ∧
    (∀ ctx r, (∀ s ∈ ctx.committed, r.intersects s = false) →
      (∃ s ∈ ctx.ancestors, r.intersects s = true) →
      enter ctx r = .error .cyclicClaim) := by
  refine ⟨?_, ?_⟩
  · intro fuel h
    obtain ⟨k, rfl⟩ := Nat.exists_eq_add_of_le h
    rw [Nat.add_comm]
    rfl
  · intro ctx r hc ha
    have hc' : ctx.committed.any (fun s => r.intersects s) = false := by
      rw [List.any_eq_false]
      intro s hs
      simp [hc s hs]
    have ha' : ctx.ancestors.any (fun s => r.intersects s) = true := by
      rw [List.any_eq_true]
      exact ha
    simp [enter, hc', ha']

/-- C1 witness: the cyclic buffer is rejected at fuel 6. -/
theorem cycle_detected_witness :
    checkArchive 6 cycleBuf .node 0 = .err .cyclicClaim :=
  cycle_detected.1 6 (by decide)

/-- C2: the pair-of-strings buffer whose two Fat References resolve to
the same 11-byte text range fails with OverlappingClaim, although each of
the two strings validates successfully in isolation; in general `enter`
fails with OverlappingClaim whenever the entered range intersects a
member of the committed set. -/
theorem overlap_detected :
    checkArchive 5 pairBuf pairTy 0 = .err .overlappingClaim ∧
    (∃ v c, checkArchive 5 pairBuf .str 0 = .ok v c) ∧
    (∃ v c, checkArchive 5 pairBuf .str 8 = .ok v c) ∧
    (∀ ctx r, (∃ s ∈ ctx.committed, r.intersects s = true) →
      enter ctx r = .error .overlappingClaim) := by
  refine ⟨rfl, ⟨_, _, rfl⟩, ⟨_, _, rfl⟩, ?_⟩
  intro ctx r h
  have h' : ctx.committed.any (fun s => r.intersects s) = true := by
    rw [List.any_eq_true]
    exact h
  simp [enter, h']

/-- C2 witness: entering a range that intersects a committed claim is
rejected. -/
theorem overlap_detected_witness :
    enter ⟨[], [⟨0, 4⟩]⟩ ⟨2, 6⟩ = .error .overlappingClaim :=
  overlap_detected.2.2.2 ⟨[], [⟨0, 4⟩]⟩ ⟨2, 6⟩ ⟨⟨0, 4⟩, by simp, by decide⟩

/-- C3: a fixed-width scalar validates only when its full width lies
inside the buffer and its position is aligned, and the three bounds
examples of the specification produce exactly OutOfBounds, Overrun and
Misaligned on the five-byte buffer. -/
theorem scalar_bounds :
    (∀ len w a p, checkPrim len w a p = .ok () → p + w ≤ len ∧ p % a = 0) ∧
    (∀ fuel buf p v c, checkArchive fuel buf .u32 p = .ok v c →
      p + 4 ≤ buf.length ∧ p % 4 = 0) ∧
    checkArchive 2 fiveBuf .u32 5 = .err .outOfBounds ∧
    checkArchive 2 fiveBuf .u32 2 = .err .overrun ∧
    checkArchive 2 fiveBuf .u32 1 = .err .misaligned := by
  refine ⟨?_, ?_, rfl, rfl, rfl⟩
  · intro len w a p h
    have h' := checkPrim_ok_iff.mp h
    exact ⟨h'.2.1, h'.2.2⟩
  · intro fuel buf p v c h
    match fuel with
    | 0 =>
      rw [checkArchive_eq] at h
      simp [run] at h
    | fuel + 1 =>
      rw [checkArchive_eq] at h
      simp only [run] at h
      cases hcp : checkPrim buf.length 4 4 p with
      | error e => rw [hcp] at h; simp at h
      | ok u =>
        have h' := checkPrim_ok_iff.mp (by cases u; exact hcp)
        exact ⟨h'.2.1, h'.2.2⟩

/-- C3 witness: a 4-byte scalar accepted at position 0 of a five-byte
buffer indeed lies within bounds and is aligned. -/
theorem scalar_bounds_witness : 0 + 4 ≤ 5 ∧ 0 % 4 = 0 :=
  scalar_bounds.1 5 4 4 0 rfl

/-- C4: an optional value whose discriminant decodes to neither 0 nor 1
fails with InvalidDiscriminant for every payload shape and without any
constraint on the payload bytes, and the synthetic buffer with
discriminant byte 2 is rejected. -/
theorem invalid_tag_rejected :
    (∀ fuel buf t p d ctx, checkPrim buf.length 4 4 p = .ok () →
      readLE4 buf p = some d → d ≠ 0 → d ≠ 1 →
      run (fuel + 1) buf (.ty (.option t) p) ctx = .err .invalidDiscriminant) ∧
    checkArchive 3 badTagBuf (.option .str) 0 = .err .invalidDiscriminant := by
  refine ⟨?_, rfl⟩
  intro fuel buf t p d ctx hcp hrd h0 h1
  simp only [run]
  rw [hcp, hrd]
  simp [h0, h1]

/-- C4 witness: the general invalid-discriminant rule applied to the
synthetic bad-tag buffer. -/
theorem invalid_tag_rejected_witness :
    run 3 badTagBuf (.ty (.option .str) 0) ⟨[⟨0, 12⟩], []⟩ =
      .err .invalidDiscriminant :=
  invalid_tag_rejected.1 2 badTagBuf .str 0 2 ⟨[⟨0, 12⟩], []⟩
    rfl rfl (by decide) (by decide)

/-- C6: a present optional value is a discriminant equal to 1 followed
immediately (after the discriminant's 4 padded bytes) by its payload with
no indirection — validating the payload at `p + 4` is exactly validating
the optional at `p` once the discriminant reads 1 — and the synthetic
27-byte buffer holding discriminant 1, relative offset 8 and length 11
validates successfully to a view of the text. -/
theorem option_present_layout :
    (∀ fuel buf t p ctx v ctx1, checkPrim buf.length 4 4 p = .ok () →
      readLE4 buf p = some 1 →
      run fuel buf (.ty t (p + 4)) ctx = .ok v ctx1 →
      run (fuel + 1) buf (.ty (.option t) p) ctx = .ok (.vsome v) ctx1) ∧
    checkArchive 3 helloBuf (.option .str) 0 =
      .ok (.vsome (.vstr helloBytes)) ⟨[], [⟨0, 12⟩, ⟨12, 23⟩]⟩ := by
  refine ⟨?_, rfl⟩
  intro fuel buf t p ctx v ctx1 hcp hrd hrun
  simp only [run]
  rw [hcp, hrd]
  simp [hrun]

/-- C6 witness: the payload-delegation rule applied to the synthetic
buffer. -/
theorem option_present_layout_witness :
    run 3 helloBuf (.ty (.option .str) 0) ⟨[⟨0, 12⟩], []⟩ =
      .ok (.vsome (.vstr helloBytes)) ⟨[⟨0, 12⟩], [⟨12, 23⟩]⟩ :=
  option_present_layout.1 2 helloBuf .str 0 ⟨[⟨0, 12⟩], []⟩
    (.vstr helloBytes) ⟨[⟨0, 12⟩], [⟨12, 23⟩]⟩ rfl rfl rfl

/-- C7: the resolver is pure arithmetic (its result is a function of the
buffer length, the field position and the stored offset alone, and it
takes no Archive Context): it succeeds exactly on targets
`fieldPos + stored` inside `[0, archive.length]` and fails with
OutOfBounds exactly when the exact integer sum falls outside. -/
theorem resolve_contract :
    (∀ len f : Nat, ∀ v : Int, ∀ t : Nat, resolve len f v = .ok t ↔
      ((t : Int) = (f : Int) + v ∧ 0 ≤ (f : Int) + v ∧
        (f : Int) + v ≤ (len : Int))) ∧
    (∀ len f : Nat, ∀ v : Int, resolve len f v = .error .outOfBounds ↔
      ((f : Int) + v < 0 ∨ (len : Int) < (f : Int) + v)) := by
  constructor
  · intro len f v t
    unfold resolve
    split_ifs with h1 h2 <;> simp_all
    all_goals omega
  · intro len f v
    unfold resolve
    split_ifs with h1 h2 <;> simp_all

/-- C7 witness: resolving stored offset 8 at field position 4 of a
27-byte archive yields target 12. -/
theorem resolve_contract_witness :
    resolve 27 4 8 = .ok 12 ∧ ((12 : Int) = (4 : Int) + 8 ∧
      0 ≤ (4 : Int) + 8 ∧ (4 : Int) + 8 ≤ (27 : Int)) :=
  ⟨rfl, (resolve_contract.1 27 4 8 12).mp rfl⟩

/-- C9: validation is a pure function of the buffer, the root position
and the type (the model threads no other state and each entry point call
builds a fresh empty context by construction), so re-running it yields
the same outcome as any prior run. -/
theorem validation_deterministic :
    ∀ fuel buf t pos r1 r2, checkArchive fuel buf t pos = r1 →
      checkArchive fuel buf t pos = r2 → r1 = r2 := by
  intro fuel buf t pos r1 r2 h1 h2
  rw [← h1, ← h2]

/-- C9 witness: two runs of the entry point on the synthetic optional
buffer agree. -/
theorem validation_deterministic_witness :
    checkArchive 3 helloBuf (.option .str) 0 =
      checkArchive 3 helloBuf (.option .str) 0 :=
  validation_deterministic 3 helloBuf (.option .str) 0 _ _ rfl rfl

theorem natLE4_val {n : Nat} (h : n < 4294967296) :
    n % 256 + 256 * (n / 256 % 256 +
      256 * (n / 65536 % 256 + 256 * (n / 16777216 % 256))) = n := by
  omega

/-- C10: stored relative offsets decode as little-endian two's-complement
signed 4-byte integers: the pattern `[244, 255, 255, 255]` at field
position 12 of the cyclic buffer decodes to -12 and resolves to target 0;
every in-range encoded offset decodes back to itself; and whenever
`0 ≤ F + v ≤ archive.length` the resolved target is `F + v`. -/
theorem relative_offset_decoding :
    (readLE4 cycleBuf 12 = some 4294967284 ∧ toI32 4294967284 = -12 ∧
      resolve 16 12 (toI32 4294967284) = .ok 0) ∧
    (∀ x : Int, -2147483648 ≤ x → x < 2147483648 →
      ∀ buf p, extract buf p 4 = encodeI32 x →
        ∃ m, readLE4 buf p = some m ∧ toI32 m = x) ∧
    (∀ len f : Nat, ∀ v : Int, 0 ≤ (f : Int) + v → (f : Int) + v ≤ (len : Int) →
      resolve len f v = .ok ((f : Int) + v).toNat) := by
  refine ⟨⟨rfl, rfl, rfl⟩, ?_, ?_⟩
  · intro x hlo hhi buf p hx
    have hnn : (0 : Int) ≤ x % 4294967296 := Int.emod_nonneg x (by norm_num)
    have hcast : (((x % 4294967296).toNat : Int)) = x % 4294967296 :=
      Int.toNat_of_nonneg hnn
    have hlt : (x % 4294967296).toNat < 4294967296 := by
      have h2 : x % 4294967296 < 4294967296 := Int.emod_lt_of_pos x (by norm_num)
      omega
    refine ⟨(x % 4294967296).toNat, ?_, ?_⟩
    · rw [readLE4, hx]
      simp only [encodeI32, natLE4]
      rw [natLE4_val hlt]
    · rw [toI32]
      split_ifs with hsplit <;> omega
  · intro len f v h0 hle
    unfold resolve
    split_ifs with h1 h2
    · exact absurd h1 (by omega)
    · exact absurd h2 (by omega)
    · rfl

/-- C10 witness: decoding the stored offset of node B of the cyclic
buffer yields -12. -/
theorem relative_offset_decoding_witness :
    ∃ m, readLE4 cycleBuf 12 = some m ∧ toI32 m = -12 :=
  relative_offset_decoding.2.1 (-12) (by norm_num) (by norm_num) cycleBuf 12
    (by decide)

/-! ### Invariant preservation for the Claims Tracker -/

theorem pairwiseDisjointB_iff (l : List Range) :
    pairwiseDisjointB l = true ↔ l.Pairwise (fun r s => r.intersects s = false) := by
  induction l with
  | nil => simp [pairwiseDisjointB]
  | cons r rs ih =>
    simp [pairwiseDisjointB, ih, List.all_eq_true, List.pairwise_cons]

theorem pairwiseDisjointB_perm {l1 l2 : List Range} (hp : l1.Perm l2)
    (h : pairwiseDisjointB l1 = true) : pairwiseDisjointB l2 = true := by
  rw [pairwiseDisjointB_iff] at h ⊢
  refine (hp.pairwise_iff ?_).mp h
  intro r s hrs
  rw [intersects_symm]
  exact hrs

theorem enter_ok_inversion {ctx : ArchiveContext} {r : Range}
    {ctx' : ArchiveContext} (h : enter ctx r = .ok ctx') :
    ctx' = ⟨r :: ctx.ancestors, ctx.committed⟩ ∧
      ∀ s ∈ rangesOf ctx, r.intersects s = false := by
  unfold enter at h
  by_cases hc : ctx.committed.any (fun s => r.intersects s) = true
  · simp [hc] at h
  · by_cases ha : ctx.ancestors.any (fun s => r.intersects s) = true
    · simp [hc, ha] at h
    · simp [hc, ha] at h
      refine ⟨h.symm, ?_⟩
      intro s hs
      rw [rangesOf, List.mem_append] at hs
      rcases hs with hs | hs
      · have := List.any_eq_false.mp (Bool.eq_false_iff.mpr ha) s hs
        simpa using this
      · have := List.any_eq_false.mp (Bool.eq_false_iff.mpr hc) s hs
        simpa using this

theorem enter_preserves_inv {len : Nat} {ctx : ArchiveContext} {r : Range}
    {ctx' : ArchiveContext} (hinv : ctxInvB len ctx = true) (hb : r.stop ≤ len)
    (h : enter ctx r = .ok ctx') : ctxInvB len ctx' = true := by
  obtain ⟨rfl, hdis⟩ := enter_ok_inversion h
  rw [ctxInvB, Bool.and_eq_true] at hinv ⊢
  obtain ⟨hball, hpw⟩ := hinv
  have hr : rangesOf ⟨r :: ctx.ancestors, ctx.committed⟩ = r :: rangesOf ctx := rfl
  constructor
  · rw [hr, List.all_eq_true]
    intro s hs
    rcases List.mem_cons.mp hs with rfl | hs
    · simpa using hb
    · exact List.all_eq_true.mp hball s hs
  · rw [hr, pairwiseDisjointB, Bool.and_eq_true]
    refine ⟨?_, hpw⟩
    rw [List.all_eq_true]
    intro s hs
    simp [hdis s hs]

theorem exitClaim_preserves_inv {len : Nat} {ctx : ArchiveContext}
    (hinv : ctxInvB len ctx = true) : ctxInvB len (exitClaim ctx) = true := by
  match hctx : ctx with
  | ⟨[], comm⟩ => simpa [exitClaim] using hinv
  | ⟨r :: anc, comm⟩ =>
    rw [ctxInvB, Bool.and_eq_true] at hinv ⊢
    obtain ⟨hball, hpw⟩ := hinv
    have hperm : (rangesOf ⟨r :: anc, comm⟩).Perm (rangesOf (exitClaim ⟨r :: anc, comm⟩)) := by
      simp only [rangesOf, exitClaim, List.cons_append]
      exact (List.perm_middle).symm
    constructor
    · rw [List.all_eq_true]
      intro s hs
      exact List.all_eq_true.mp hball s (hperm.mem_iff.mpr hs)
    · exact pairwiseDisjointB_perm hperm hpw

theorem exitClaim_of_cons {ctx : ArchiveContext} {r : Range} {rest : List Range}
    (h : ctx.ancestors = r :: rest) :
    exitClaim ctx = ⟨rest, r :: ctx.committed⟩ := by
  cases ctx with
  | mk anc comm =>
    simp only at h
    subst h
    rfl

/-- Every successful step of the recursive walk restores the ancestor
stack it started from and preserves the Claims Tracker invariant. -/
theorem run_preserves_aux :
    ∀ fuel buf task ctx v ctx',
      run fuel buf task ctx = .ok v ctx' →
      ctx'.ancestors = ctx.ancestors ∧
      (ctxInvB buf.length ctx = true → ctxInvB buf.length ctx' = true) := by
  intro fuel
  induction fuel with
  | zero =>
    intro buf task ctx v ctx' h
    simp [run] at h
  | succ fuel ih =>
    intro buf task ctx v ctx' h
    cases task with
    | ty t p =>
      cases t with
      | u32 =>
        simp only [run] at h
        cases hcp : checkPrim buf.length 4 4 p with
        | error e => simp only [hcp] at h; simp at h
        | ok u =>
          simp only [hcp] at h
          cases hrd : readLE4 buf p with
          | none => simp only [hrd] at h; simp at h
          | some n =>
            simp only [hrd] at h
            simp only [ROut.ok.injEq] at h
            rw [← h.2]
            exact ⟨rfl, fun hi => hi⟩
      | str =>
        simp only [run] at h
        cases hcp : checkPrim buf.length 8 4 p with
        | error e => simp only [hcp] at h; simp at h
        | ok u =>
          simp only [hcp] at h
          cases hr1 : readLE4 buf p with
          | none => simp only [hr1] at h; simp at h
          | some rel =>
            simp only [hr1] at h
            cases hr2 : readLE4 buf (p + 4) with
            | none => simp only [hr2] at h; simp at h
            | some cnt =>
              simp only [hr2] at h
              cases hres : resolve buf.length p (toI32 rel) with
              | error e => simp only [hres] at h; simp at h
              | ok tgt =>
                simp only [hres] at h
                by_cases hb : buf.length < tgt + cnt
                · simp only [if_pos hb] at h; simp at h
                · simp only [if_neg hb] at h
                  cases hent : enter ctx ⟨tgt, tgt + cnt⟩ with
                  | error e => simp only [hent] at h; simp at h
                  | ok ctx1 =>
                    simp only [hent] at h
                    simp only [ROut.ok.injEq] at h
                    obtain ⟨hv, hctx⟩ := h
                    obtain ⟨hc1, hdis⟩ := enter_ok_inversion hent
                    subst hctx
                    constructor
                    · rw [exitClaim_of_cons (by rw [hc1])]
                    · intro hi
                      exact exitClaim_preserves_inv
                        (enter_preserves_inv hi (Nat.le_of_not_lt hb) hent)
      | option t' =>
        simp only [run] at h
        cases hcp : checkPrim buf.length 4 4 p with
        | error e => simp only [hcp] at h; simp at h
        | ok u =>
          simp only [hcp] at h
          cases hrd : readLE4 buf p with
          | none => simp only [hrd] at h; simp at h
          | some d =>
            simp only [hrd] at h
            by_cases hd0 : d = 0
            · simp only [if_pos hd0] at h
              simp only [ROut.ok.injEq] at h
              rw [← h.2]
              exact ⟨rfl, fun hi => hi⟩
            · simp only [if_neg hd0] at h
              by_cases hd1 : d = 1
              · simp only [if_pos hd1] at h
                cases hrun : run fuel buf (.ty t' (p + 4)) ctx with
                | out => simp only [hrun] at h; simp at h
                | err e => simp only [hrun] at h; simp at h
                | ok v1 c1 =>
                  simp only [hrun] at h
                  simp only [ROut.ok.injEq] at h
                  rw [← h.2]
                  exact ih buf _ ctx v1 c1 hrun
              · simp only [if_neg hd1] at h; simp at h
      | boxed t' =>
        simp only [run] at h
        cases hcp : checkPrim buf.length 4 4 p with
        | error e => simp only [hcp] at h; simp at h
        | ok u =>
          simp only [hcp] at h
          cases hr1 : readLE4 buf p with
          | none => simp only [hr1] at h; simp at h
          | some rel =>
            simp only [hr1] at h
            cases hres : resolve buf.length p (toI32 rel) with
            | error e => simp only [hres] at h; simp at h
            | ok tgt =>
              simp only [hres] at h
              by_cases hb : buf.length < tgt + sizeOfTy t'
              · simp only [if_pos hb] at h; simp at h
              · simp only [if_neg hb] at h
                cases hent : enter ctx ⟨tgt, tgt + sizeOfTy t'⟩ with
                | error e => simp only [hent] at h; simp at h
                | ok ctx1 =>
                  simp only [hent] at h
                  cases hrun : run fuel buf (.ty t' tgt) ctx1 with
                  | out => simp only [hrun] at h; simp at h
                  | err e => simp only [hrun] at h; simp at h
                  | ok v1 ctx2 =>
                    simp only [hrun] at h
                    simp only [ROut.ok.injEq] at h
                    obtain ⟨hv, hctx⟩ := h
                    obtain ⟨hc1, hdis⟩ := enter_ok_inversion hent
                    have hih := ih buf _ _ _ _ hrun
                    subst hctx
                    constructor
                    · rw [exitClaim_of_cons (by rw [hih.1, hc1])]
                    · intro hi
                      exact exitClaim_preserves_inv
                        (hih.2 (enter_preserves_inv hi (Nat.le_of_not_lt hb) hent))
      | vec t' =>
        simp only [run] at h
        cases hcp : checkPrim buf.length 8 4 p with
        | error e => simp only [hcp] at h; simp at h
        | ok u =>
          simp only [hcp] at h
          cases hr1 : readLE4 buf p with
          | none => simp only [hr1] at h; simp at h
          | some rel =>
            simp only [hr1] at h
            cases hr2 : readLE4 buf (p + 4) with
            | none => simp only [hr2] at h; simp at h
            | some cnt =>
              simp only [hr2] at h
              cases hres : resolve buf.length p (toI32 rel) with
              | error e => simp only [hres] at h; simp at h
              | ok tgt =>
                simp only [hres] at h
                by_cases hb : buf.length < tgt + cnt * sizeOfTy t'
                · simp only [if_pos hb] at h; simp at h
                · simp only [if_neg hb] at h
                  cases hent : enter ctx ⟨tgt, tgt + cnt * sizeOfTy t'⟩ with
                  | error e => simp only [hent] at h; simp at h
                  | ok ctx1 =>
                    simp only [hent] at h
                    cases hrun : run fuel buf (.ty (repTy t' cnt) tgt) ctx1 with
                    | out => simp only [hrun] at h; simp at h
                    | err e => simp only [hrun] at h; simp at h
                    | ok v1 ctx2 =>
                      simp only [hrun] at h
                      simp only [ROut.ok.injEq] at h
                      obtain ⟨hv, hctx⟩ := h
                      obtain ⟨hc1, hdis⟩ := enter_ok_inversion hent
                      have hih := ih buf _ _ _ _ hrun
                      subst hctx
                      constructor
                      · rw [exitClaim_of_cons (by rw [hih.1, hc1])]
                      · intro hi
                        exact exitClaim_preserves_inv
                          (hih.2 (enter_preserves_inv hi (Nat.le_of_not_lt hb) hent))
      | node =>
        simp only [run] at h
        cases hcp : checkPrim buf.length 4 4 p with
        | error e => simp only [hcp] at h; simp at h
        | ok u =>
          simp only [hcp] at h
          cases hrd : readLE4 buf p with
          | none => simp only [hrd] at h; simp at h
          | some d =>
            simp only [hrd] at h
            by_cases hd0 : d = 0
            · simp only [if_pos hd0] at h
              simp only [ROut.ok.injEq] at h
              rw [← h.2]
              exact ⟨rfl, fun hi => hi⟩
            · simp only [if_neg hd0] at h
              by_cases hd1 : d = 1
              · simp only [if_pos hd1] at h
                cases hrun : run fuel buf (.ty (.boxed .node) (p + 4)) ctx with
                | out => simp only [hrun] at h; simp at h
                | err e => simp only [hrun] at h; simp at h
                | ok v1 c1 =>
                  simp only [hrun] at h
                  simp only [ROut.ok.injEq] at h
                  rw [← h.2]
                  exact ih buf _ ctx v1 c1 hrun
              · simp only [if_neg hd1] at h; simp at h
      | recNil =>
        simp only [run] at h
        by_cases hb : buf.length < p
        · simp only [if_pos hb] at h; simp at h
        · simp only [if_neg hb] at h
          simp only [ROut.ok.injEq] at h
          rw [← h.2]
          exact ⟨rfl, fun hi => hi⟩
      | recCons t' rest =>
        simp only [run] at h
        cases hrun1 : run fuel buf (.ty t' p) ctx with
        | out => simp only [hrun1] at h; simp at h
        | err e => simp only [hrun1] at h; simp at h
        | ok v1 c1 =>
          simp only [hrun1] at h
          cases hrun2 : run fuel buf (.ty rest (p + sizeOfTy t')) c1 with
          | out => simp only [hrun2] at h; simp at h
          | err e => simp only [hrun2] at h; simp at h
          | ok v2 c2 =>
            simp only [hrun2] at h
            simp only [ROut.ok.injEq] at h
            rw [← h.2]
            have h1 := ih buf _ _ _ _ hrun1
            have h2 := ih buf _ _ _ _ hrun2
            exact ⟨by rw [h2.1, h1.1], fun hi => h2.2 (h1.2 hi)⟩
      | enumNil =>
        simp only [run] at h
        cases hcp : checkPrim buf.length 4 4 p with
        | error e => simp only [hcp] at h; simp at h
        | ok u => simp only [hcp] at h; simp at h
      | enumCons t' rest =>
        simp only [run] at h
        cases hcp : checkPrim buf.length 4 4 p with
        | error e => simp only [hcp] at h; simp at h
        | ok u =>
          simp only [hcp] at h
          cases hrd : readLE4 buf p with
          | none => simp only [hrd] at h; simp at h
          | some d =>
            simp only [hrd] at h
            cases hrun : run fuel buf (.variants (.enumCons t' rest) d (p + 4)) ctx with
            | out => simp only [hrun] at h; simp at h
            | err e => simp only [hrun] at h; simp at h
            | ok v1 c1 =>
              simp only [hrun] at h
              simp only [ROut.ok.injEq] at h
              rw [← h.2]
              exact ih buf _ ctx v1 c1 hrun
    | variants ts d p =>
      cases ts with
      | enumCons t' rest =>
        cases d with
        | zero =>
          simp only [run] at h
          exact ih buf _ ctx v ctx' h
        | succ d =>
          simp only [run] at h
          exact ih buf _ ctx v ctx' h
      | u32 => simp only [run] at h; simp at h
      | str => simp only [run] at h; simp at h
      | option t' => simp only [run] at h; simp at h
      | boxed t' => simp only [run] at h; simp at h
      | vec t' => simp only [run] at h; simp at h
      | node => simp only [run] at h; simp at h
      | recNil => simp only [run] at h; simp at h
      | recCons t' rest => simp only [run] at h; simp at h
      | enumNil => simp only [run] at h; simp at h

/-- C8 counterexample: the claim that no in-progress or committed claim
ever extends past `archive.length` at any point during or after a
successful validation fails on the engine as specified: validating an
absent optional string against the four-byte buffer `[0, 0, 0, 0]`
succeeds — the discriminant reads 0 and the payload bytes are never
inspected — yet the root claim spans `[0, 12)`, which extends eight bytes
past the end of the archive and is committed by the time the entry point
returns. -/
theorem claims_invariant_counterexample :
    checkArchive 1 [0, 0, 0, 0] (.option .str) 0 = .ok .vnone ⟨[], [⟨0, 12⟩]⟩ ∧
    ([0, 0, 0, 0] : List Nat).length = 4 ∧ ¬((12 : Nat) ≤ 4) :=
  ⟨rfl, rfl, by decide⟩

/-- C8 amended: no two committed Claims overlap and no tracked Claim
extends past `archive.length` or before 0, as an invariant preserved by
every `enter` whose range lies within bounds (every range entered by the
recursive walk itself is bounds-checked before entry; only the root claim
of the entry point is not), by every `exit`, and by every successful step
of the recursive walk, which in addition always restores the ancestor
stack it started from. -/
theorem claims_invariant_preserved :
    (∀ len : Nat, ∀ ctx r ctx', ctxInvB len ctx = true → r.stop ≤ len →
      enter ctx r = .ok ctx' → ctxInvB len ctx' = true) ∧
    (∀ len : Nat, ∀ ctx, ctxInvB len ctx = true →
      ctxInvB len (exitClaim ctx) = true) ∧
    (∀ fuel buf task ctx v ctx', run fuel buf task ctx = .ok v ctx' →
      ctx'.ancestors = ctx.ancestors ∧
      (ctxInvB buf.length ctx = true → ctxInvB buf.length ctx' = true)) :=
  ⟨fun _ _ _ _ hinv hb h => enter_preserves_inv hinv hb h,
   fun _ _ hinv => exitClaim_preserves_inv hinv,
   run_preserves_aux⟩

/-- C8 witness: the preserved invariant applied to a concrete in-bounds
entry on the empty context. -/
theorem claims_invariant_preserved_witness :
    ctxInvB 16 ⟨[⟨0, 8⟩], []⟩ = true :=
  claims_invariant_preserved.1 16 ⟨[], []⟩ ⟨0, 8⟩ ⟨[⟨0, 8⟩], []⟩
    (by decide) (by decide) rfl

/-! ### List-extraction and buffer-extension lemmas -/

theorem extract_length (buf : List Nat) (p n : Nat) (h : p + n ≤ buf.length) :
    (extract buf p n).length = n := by
  simp [extract]
  omega

theorem extract_append_left {a : List Nat} (b : List Nat) {p n : Nat}
    (h : p + n ≤ a.length) : extract (a ++ b) p n = extract a p n := by
  simp only [extract, List.drop_append_eq_append_drop]
  rw [List.take_append_eq_append_take]
  have h1 : p - a.length = 0 := by omega
  have h2 : n - (a.drop p).length = 0 := by
    simp only [List.length_drop]
    omega
  rw [h1, h2]
  simp

theorem extract_append_self (a b : List Nat) :
    extract (a ++ b) a.length b.length = b := by
  simp [extract, List.drop_left]

theorem extract_split (buf : List Nat) (p m n : Nat) :
    extract buf p (m + n) = extract buf p m ++ extract buf (p + m) n := by
  simp only [extract, List.take_add, List.drop_drop]

theorem bufExt_refl (a : List Nat) : BufExt a a := ⟨[], by simp⟩

theorem bufExt_append (a s : List Nat) : BufExt a (a ++ s) := ⟨s, rfl⟩

theorem bufExt_trans {a b c : List Nat} (h1 : BufExt a b) (h2 : BufExt b c) :
    BufExt a c := by
  obtain ⟨s1, rfl⟩ := h1
  obtain ⟨s2, rfl⟩ := h2
  exact ⟨s1 ++ s2, by simp⟩

theorem bufExt_length {a b : List Nat} (h : BufExt a b) : a.length ≤ b.length := by
  obtain ⟨s, rfl⟩ := h
  simp

theorem extract_of_bufExt {a b : List Nat} {p n : Nat} (h : BufExt a b)
    (hb : p + n ≤ a.length) : extract b p n = extract a p n := by
  obtain ⟨s, rfl⟩ := h
  exact extract_append_left s hb

theorem alignTo4_ext (a : List Nat) : BufExt a (alignTo4 a) := ⟨_, rfl⟩

theorem alignTo4_mod (a : List Nat) : (alignTo4 a).length % 4 = 0 := by
  simp [alignTo4]
  omega

theorem sizeOfTy_mod4 : ∀ t : Ty, sizeOfTy t % 4 = 0 := by
  intro t
  induction t with
  | u32 => rfl
  | str => rfl
  | option t ih => simp [sizeOfTy]; omega
  | boxed t ih => simp [sizeOfTy]
  | vec t ih => simp [sizeOfTy]
  | node => rfl
  | recNil => rfl
  | recCons t rest iht ihr => simp [sizeOfTy]; omega
  | enumNil => rfl
  | enumCons t rest iht ihr =>
    simp only [sizeOfTy, Nat.max_def]
    split_ifs <;> omega

theorem sizeOfTy_repTy (t : Ty) : ∀ n, sizeOfTy (repTy t n) = n * sizeOfTy t := by
  intro n
  induction n with
  | zero => simp [repTy, sizeOfTy]
  | succ n ih =>
    simp only [repTy, sizeOfTy, ih]
    ring

/-! ### Decoding helpers -/

theorem readLE4_of_extract {buf : List Nat} {p n : Nat}
    (h : extract buf p 4 = natLE4 n) (hn : n < 4294967296) :
    readLE4 buf p = some n := by
  rw [readLE4, h]
  simp only [natLE4]
  rw [natLE4_val hn]

theorem decodeI32_of_extract {x : Int} {buf : List Nat} {p : Nat}
    (hlo : -2147483648 ≤ x) (hhi : x < 2147483648)
    (h : extract buf p 4 = encodeI32 x) :
    ∃ m, readLE4 buf p = some m ∧ toI32 m = x := by
  have hnn : (0 : Int) ≤ x % 4294967296 := Int.emod_nonneg x (by norm_num)
  have hcast : (((x % 4294967296).toNat : Int)) = x % 4294967296 :=
    Int.toNat_of_nonneg hnn
  have hlt : (x % 4294967296).toNat < 4294967296 := by
    have h2 : x % 4294967296 < 4294967296 := Int.emod_lt_of_pos x (by norm_num)
    omega
  refine ⟨(x % 4294967296).toNat, ?_, ?_⟩
  · exact readLE4_of_extract h hlt
  · rw [toI32]
    split_ifs with hsplit <;> omega

theorem resolve_ok_of {len f : Nat} {v : Int} (h0 : 0 ≤ (f : Int) + v)
    (hle : (f : Int) + v ≤ (len : Int)) :
    resolve len f v = .ok ((f : Int) + v).toNat := by
  unfold resolve
  split_ifs with h1 h2
  · exact absurd h1 (by omega)
  · exact absurd h2 (by omega)
  · rfl

theorem resolve_self {len pos tgt : Nat} (h : tgt ≤ len) :
    resolve len pos ((tgt : Int) - (pos : Int)) = .ok tgt := by
  have h0 : (0 : Int) ≤ (pos : Int) + ((tgt : Int) - (pos : Int)) := by omega
  have hle : (pos : Int) + ((tgt : Int) - (pos : Int)) ≤ (len : Int) := by omega
  rw [resolve_ok_of h0 hle]
  congr 1
  omega

/-! ### Range-intersection helpers -/

theorem intersects_false_of_stop_le {r s : Range} (h : r.stop ≤ s.start) :
    r.intersects s = false := by
  simp only [Range.intersects, Bool.and_eq_false_iff, decide_eq_false_iff_not,
    Nat.not_lt]
  omega

theorem intersects_false_of_start_ge {r s : Range} (h : s.stop ≤ r.start) :
    r.intersects s = false := by
  simp only [Range.intersects, Bool.and_eq_false_iff, decide_eq_false_iff_not,
    Nat.not_lt]
  omega

theorem pairwiseDisjointB_append_iff {l1 l2 : List Range} :
    pairwiseDisjointB (l1 ++ l2) = true ↔
      pairwiseDisjointB l1 = true ∧ pairwiseDisjointB l2 = true ∧
      ∀ c1 ∈ l1, ∀ c2 ∈ l2, c1.intersects c2 = false := by
  rw [pairwiseDisjointB_iff, pairwiseDisjointB_iff, pairwiseDisjointB_iff,
    List.pairwise_append]

/-! ### Well-typed value lemmas -/

theorem hasTy_tag_lt_num : ∀ i {pv : Value} {ts : Ty},
    HasTy (.vtag i pv) ts → i < numVariants ts := by
  intro i
  induction i with
  | zero =>
    intro pv ts h
    cases h with
    | tagZero hp => simp only [numVariants]; omega
  | succ i ih =>
    intro pv ts h
    cases h with
    | tagSucc hp hl =>
      have := ih hp
      simp only [numVariants]
      omega

theorem hasTy_tag_payload : ∀ i {pv : Value} {ts : Ty},
    HasTy (.vtag i pv) ts → HasTy pv (variantTy ts i) := by
  intro i
  induction i with
  | zero =>
    intro pv ts h
    cases h with
    | tagZero hp => simpa [variantTy] using hp
  | succ i ih =>
    intro pv ts h
    cases h with
    | tagSucc hp hl => simpa [variantTy] using ih hp

theorem hasTy_tag_lt {i : Nat} {pv : Value} {ts : Ty}
    (h : HasTy (.vtag i pv) ts) : i < 4294967296 := by
  cases h with
  | tagZero hp => norm_num
  | tagSucc hp hl => exact hl

theorem variant_size_le : ∀ i {pv : Value} {ts : Ty},
    HasTy (.vtag i pv) ts → 4 + sizeOfTy (variantTy ts i) ≤ sizeOfTy ts := by
  intro i
  induction i with
  | zero =>
    intro pv ts h
    cases h with
    | tagZero hp =>
      simp only [variantTy, sizeOfTy]
      exact Nat.le_max_left _ _
  | succ i ih =>
    intro pv ts h
    cases h with
    | tagSucc hp hl =>
      simp only [variantTy, sizeOfTy]
      exact le_trans (ih hp) (Nat.le_max_right _ _)

theorem hasTy_repTy_vlen : ∀ n {vs : Value} {t : Ty},
    HasTy vs (repTy t n) → vlen vs = n := by
  intro n
  induction n with
  | zero =>
    intro vs t h
    simp only [repTy] at h
    cases h
    rfl
  | succ n ih =>
    intro vs t h
    simp only [repTy] at h
    cases h with
    | consC hv hvs htail =>
      simp only [vlen]
      rw [ih hvs]
      omega

/-- The inline representation of a well-typed, correctly arranged value
occupies exactly the type's static size. -/
theorem inlineBytes_length {buf : List Nat} :
    ∀ v {t : Ty} {r : Res}, HasTy v t → ArrangedDeps buf t v r →
      ∀ pos, (inlineBytes t v r pos).length = sizeOfTy t := by
  intro v
  induction v with
  | vu32 n =>
    intro t r h ha pos
    cases h
    simp [inlineBytes, natLE4, sizeOfTy]
  | vstr bs =>
    intro t r h ha pos
    cases h
    cases r <;> simp only [ArrangedDeps] at ha ⊢
    simp [inlineBytes, encodeI32, natLE4, sizeOfTy]
  | vnone =>
    intro t r h ha pos
    cases h
    simp [inlineBytes, natLE4, sizeOfTy]
    omega
  | vsome v ih =>
    intro t r h ha pos
    cases h with
    | someC hv =>
      cases r <;> simp only [ArrangedDeps] at ha ⊢
      simp [inlineBytes, natLE4, sizeOfTy, ih hv ha]
      omega
  | vbox v ih =>
    intro t r h ha pos
    cases h with
    | boxC hv =>
      cases r <;> simp only [ArrangedDeps] at ha ⊢
      simp [inlineBytes, encodeI32, natLE4, sizeOfTy]
  | vvec vs ih =>
    intro t r h ha pos
    cases h with
    | vecC hvs hn =>
      cases r <;> simp only [ArrangedDeps] at ha ⊢
      simp [inlineBytes, encodeI32, natLE4, sizeOfTy]
  | vnil =>
    intro t r h ha pos
    cases h
    simp [inlineBytes, sizeOfTy]
  | vcons v vs ihv ihvs =>
    intro t r h ha pos
    cases h with
    | consC hv hvs htail =>
      cases r <;> simp only [ArrangedDeps] at ha ⊢
      simp [inlineBytes, sizeOfTy, ihv hv ha.1, ihvs hvs ha.2]
  | vtag i pv ih =>
    intro t r h ha pos
    cases r <;> simp only [ArrangedDeps] at ha ⊢
    have hp := hasTy_tag_payload i h
    have hs := variant_size_le i h
    simp [inlineBytes, natLE4, ih hp ha]
    omega
  | vnodeNil =>
    intro t r h ha pos
    cases h
  | vnodeCons v ih =>
    intro t r h ha pos
    cases h

/-- Correct arrangement of dependents is stable under appending to the
buffer. -/
theorem arrangedDeps_mono {a b : List Nat} (hab : BufExt a b) :
    ∀ v {t : Ty} {r : Res}, ArrangedDeps a t v r → ArrangedDeps b t v r := by
  intro v
  induction v with
  | vu32 n =>
    intro t r ha
    cases r <;> simp only [ArrangedDeps] at ha ⊢
  | vstr bs =>
    intro t r ha
    cases r <;> simp only [ArrangedDeps] at ha ⊢
    obtain ⟨h1, h2⟩ := ha
    exact ⟨(extract_of_bufExt hab h2).trans h1, le_trans h2 (bufExt_length hab)⟩
  | vnone =>
    intro t r ha
    cases r <;> simp only [ArrangedDeps] at ha ⊢
  | vsome v ih =>
    intro t r ha
    cases t <;> cases r <;> simp only [ArrangedDeps] at ha ⊢
    exact ih ha
  | vbox v ih =>
    intro t r ha
    cases t <;> cases r <;> simp only [ArrangedDeps] at ha ⊢
    obtain ⟨h1, h2, h3, h4⟩ := ha
    exact ⟨ih h1, (extract_of_bufExt hab h4).trans h2, h3,
      le_trans h4 (bufExt_length hab)⟩
  | vvec vs ih =>
    intro t r ha
    cases t <;> cases r <;> simp only [ArrangedDeps] at ha ⊢
    obtain ⟨h1, h2, h3, h4⟩ := ha
    exact ⟨ih h1, (extract_of_bufExt hab h4).trans h2, h3,
      le_trans h4 (bufExt_length hab)⟩
  | vnil =>
    intro t r ha
    cases r <;> simp only [ArrangedDeps] at ha ⊢
  | vcons v vs ihv ihvs =>
    intro t r ha
    cases t <;> cases r <;> simp only [ArrangedDeps] at ha ⊢
    exact ⟨ihv ha.1, ihvs ha.2⟩
  | vtag i pv ih =>
    intro t r ha
    cases r <;> simp only [ArrangedDeps] at ha ⊢
    exact ih ha
  | vnodeNil =>
    intro t r ha
    cases t <;> cases r <;> simp only [ArrangedDeps] at ha ⊢
  | vnodeCons v ih =>
    intro t r ha
    cases t <;> cases r <;> simp only [ArrangedDeps] at ha ⊢

/-! ### Writer correctness -/

theorem writeDeps_vsome (t' : Ty) (v' : Value) (buf : List Nat) :
    writeDeps (.option t') (.vsome v') buf =
      ((writeDeps t' v' buf).1, .someR (writeDeps t' v' buf).2) := rfl

theorem writeDeps_vbox (t' : Ty) (v' : Value) (buf : List Nat) :
    writeDeps (.boxed t') (.vbox v') buf =
      (alignTo4 (writeDeps t' v' buf).1 ++
        inlineBytes t' v' (writeDeps t' v' buf).2
          (alignTo4 (writeDeps t' v' buf).1).length,
       .boxR (alignTo4 (writeDeps t' v' buf).1).length
         (writeDeps t' v' buf).2) := rfl

theorem writeDeps_vvec (t' : Ty) (vs : Value) (buf : List Nat) :
    writeDeps (.vec t') (.vvec vs) buf =
      (alignTo4 (writeDeps (repTy t' (vlen vs)) vs buf).1 ++
        inlineBytes (repTy t' (vlen vs)) vs
          (writeDeps (repTy t' (vlen vs)) vs buf).2
          (alignTo4 (writeDeps (repTy t' (vlen vs)) vs buf).1).length,
       .vecR (alignTo4 (writeDeps (repTy t' (vlen vs)) vs buf).1).length
         (writeDeps (repTy t' (vlen vs)) vs buf).2) := rfl

theorem writeDeps_vcons (t' ts : Ty) (v' vs : Value) (buf : List Nat) :
    writeDeps (.recCons t' ts) (.vcons v' vs) buf =
      ((writeDeps ts vs (writeDeps t' v' buf).1).1,
       .consR (writeDeps t' v' buf).2
         (writeDeps ts vs (writeDeps t' v' buf).1).2) := rfl

theorem writeDeps_vtag (ts : Ty) (i : Nat) (pv : Value) (buf : List Nat) :
    writeDeps ts (.vtag i pv) buf =
      ((writeDeps (variantTy ts i) pv buf).1,
       .tagR (writeDeps (variantTy ts i) pv buf).2) := rfl

/-- The collaborator writer's dependents pass only appends to the
buffer, arranges every out-of-line object at its resolver target, places
all registered claims inside the newly written region, and keeps them
pairwise disjoint. -/
theorem writeDeps_spec :
    ∀ v {t : Ty}, HasTy v t → ∀ buf : List Nat,
      BufExt buf (writeDeps t v buf).1 ∧
      ArrangedDeps (writeDeps t v buf).1 t v (writeDeps t v buf).2 ∧
      (∀ c ∈ claimsOf t v (writeDeps t v buf).2,
        buf.length ≤ c.start ∧ c.stop ≤ (writeDeps t v buf).1.length) ∧
      pairwiseDisjointB (claimsOf t v (writeDeps t v buf).2) = true := by
  intro v
  induction v with
  | vu32 n =>
    intro t h buf
    cases h
    exact ⟨bufExt_refl _, by simp [writeDeps, ArrangedDeps],
      by simp [writeDeps, claimsOf], by simp [writeDeps, claimsOf, pairwiseDisjointB]⟩
  | vstr bs =>
    intro t h buf
    cases h with
    | strC hb hl =>
      refine ⟨⟨bs, rfl⟩, ?_, ?_, ?_⟩
      · simp only [writeDeps, ArrangedDeps]
        exact ⟨extract_append_self buf bs, by simp⟩
      · simp only [writeDeps, claimsOf]
        intro c hc
        rw [List.mem_singleton] at hc
        subst hc
        simp
      · simp [writeDeps, claimsOf, pairwiseDisjointB]
  | vnone =>
    intro t h buf
    cases h
    exact ⟨bufExt_refl _, by simp [writeDeps, ArrangedDeps],
      by simp [writeDeps, claimsOf], by simp [writeDeps, claimsOf, pairwiseDisjointB]⟩
  | vsome v' ih =>
    intro t h buf
    cases h with
    | @someC _ t' hv =>
      obtain ⟨h1, h2, h3, h4⟩ := ih hv buf
      simp only [writeDeps_vsome, ArrangedDeps, claimsOf]
      exact ⟨h1, h2, h3, h4⟩
  | vbox v' ih =>
    intro t h buf
    cases h with
    | @boxC _ t' hv =>
      obtain ⟨h1, h2, h3, h4⟩ := ih hv buf
      have hlenI := inlineBytes_length v' hv h2
        (alignTo4 (writeDeps t' v' buf).1).length
      have hb2 : BufExt (writeDeps t' v' buf).1 (alignTo4 (writeDeps t' v' buf).1) :=
        alignTo4_ext _
      have hfin : BufExt (alignTo4 (writeDeps t' v' buf).1)
          (alignTo4 (writeDeps t' v' buf).1 ++
            inlineBytes t' v' (writeDeps t' v' buf).2
              (alignTo4 (writeDeps t' v' buf).1).length) := bufExt_append _ _
      simp only [writeDeps_vbox, ArrangedDeps, claimsOf]
      refine ⟨bufExt_trans h1 (bufExt_trans hb2 hfin), ?_, ?_, ?_⟩
      · refine ⟨arrangedDeps_mono (bufExt_trans hb2 hfin) v' h2, ?_,
          alignTo4_mod _, ?_⟩
        · rw [← hlenI]
          exact extract_append_self _ _
        · simp [hlenI]
      · intro c hc
        rw [List.mem_cons] at hc
        rcases hc with rfl | hc
        · constructor
          · exact le_trans (bufExt_length h1) (bufExt_length hb2)
          · simp [hlenI]
        · obtain ⟨hs1, hs2⟩ := h3 c hc
          refine ⟨hs1, le_trans hs2 ?_⟩
          exact le_trans (bufExt_length hb2) (bufExt_length hfin)
      · rw [pairwiseDisjointB, Bool.and_eq_true]
        refine ⟨?_, h4⟩
        rw [List.all_eq_true]
        intro c hc
        obtain ⟨hs1, hs2⟩ := h3 c hc
        have hle : c.stop ≤ (alignTo4 (writeDeps t' v' buf).1).length :=
          le_trans hs2 (bufExt_length hb2)
        simp only [Bool.not_eq_true']
        exact intersects_false_of_start_ge hle
  | vvec vs ih =>
    intro t h buf
    cases h with
    | @vecC _ t' n hvs hn =>
      have hvv := hasTy_repTy_vlen _ hvs
      rw [← hvv] at hvs
      obtain ⟨h1, h2, h3, h4⟩ := ih hvs buf
      have hlenI := inlineBytes_length vs hvs h2
        (alignTo4 (writeDeps (repTy t' (vlen vs)) vs buf).1).length
      rw [sizeOfTy_repTy] at hlenI
      have hb2 : BufExt (writeDeps (repTy t' (vlen vs)) vs buf).1 (alignTo4 (writeDeps (repTy t' (vlen vs)) vs buf).1) :=
        alignTo4_ext _
      have hfin : BufExt (alignTo4 (writeDeps (repTy t' (vlen vs)) vs buf).1)
          (alignTo4 (writeDeps (repTy t' (vlen vs)) vs buf).1 ++
            inlineBytes (repTy t' (vlen vs)) vs (writeDeps (repTy t' (vlen vs)) vs buf).2
              (alignTo4 (writeDeps (repTy t' (vlen vs)) vs buf).1).length) := bufExt_append _ _
      simp only [writeDeps_vvec, ArrangedDeps, claimsOf]
      refine ⟨bufExt_trans h1 (bufExt_trans hb2 hfin), ?_, ?_, ?_⟩
      · refine ⟨arrangedDeps_mono (bufExt_trans hb2 hfin) vs h2, ?_,
          alignTo4_mod _, ?_⟩
        · rw [← sizeOfTy_repTy, ← inlineBytes_length vs hvs h2]
          exact extract_append_self _ _
        · simp [hlenI]
      · intro c hc
        rw [List.mem_cons] at hc
        rcases hc with rfl | hc
        · constructor
          · exact le_trans (bufExt_length h1) (bufExt_length hb2)
          · simp [hlenI]
        · obtain ⟨hs1, hs2⟩ := h3 c hc
          refine ⟨hs1, le_trans hs2 ?_⟩
          exact le_trans (bufExt_length hb2) (bufExt_length hfin)
      · rw [pairwiseDisjointB, Bool.and_eq_true]
        refine ⟨?_, h4⟩
        rw [List.all_eq_true]
        intro c hc
        obtain ⟨hs1, hs2⟩ := h3 c hc
        have hle : c.stop ≤ (alignTo4 (writeDeps (repTy t' (vlen vs)) vs buf).1).length :=
          le_trans hs2 (bufExt_length hb2)
        simp only [Bool.not_eq_true']
        exact intersects_false_of_start_ge hle
  | vnil =>
    intro t h buf
    cases h
    exact ⟨bufExt_refl _, by simp [writeDeps, ArrangedDeps],
      by simp [writeDeps, claimsOf], by simp [writeDeps, claimsOf, pairwiseDisjointB]⟩
  | vcons v' vs ihv ihvs =>
    intro t h buf
    cases h with
    | @consC _ t' _ ts hv hvs htail =>
      obtain ⟨h1a, h2a, h3a, h4a⟩ := ihv hv buf
      obtain ⟨h1b, h2b, h3b, h4b⟩ := ihvs hvs (writeDeps t' v' buf).1
      simp only [writeDeps_vcons, ArrangedDeps, claimsOf]
      refine ⟨bufExt_trans h1a h1b, ⟨arrangedDeps_mono h1b v' h2a, h2b⟩, ?_, ?_⟩
      · intro c hc
        rw [List.mem_append] at hc
        rcases hc with hc | hc
        · obtain ⟨hs1, hs2⟩ := h3a c hc
          exact ⟨hs1, le_trans hs2 (bufExt_length h1b)⟩
        · obtain ⟨hs1, hs2⟩ := h3b c hc
          exact ⟨le_trans (bufExt_length h1a) hs1, hs2⟩
      · rw [pairwiseDisjointB_append_iff]
        refine ⟨h4a, h4b, ?_⟩
        intro c1 hc1 c2 hc2
        obtain ⟨_, hs2⟩ := h3a c1 hc1
        obtain ⟨hs1', _⟩ := h3b c2 hc2
        exact intersects_false_of_stop_le (le_trans hs2 hs1')
  | vtag i pv ih =>
    intro t h buf
    have hp := hasTy_tag_payload i h
    obtain ⟨h1, h2, h3, h4⟩ := ih hp buf
    simp only [writeDeps_vtag, ArrangedDeps, claimsOf]
    exact ⟨h1, h2, h3, h4⟩
  | vnodeNil =>
    intro t h buf
    cases h
  | vnodeCons v' ih =>
    intro t h buf
    cases h

/-! ### Round-trip: the checker accepts everything the writer produces -/

theorem extract_split_eq {buf x y : List Nat} {pos m n : Nat}
    (h : extract buf pos (m + n) = x ++ y) (hx : x.length = m)
    (hbound : pos + (m + n) ≤ buf.length) :
    extract buf pos m = x ∧ extract buf (pos + m) n = y := by
  rw [extract_split] at h
  have h1 : (extract buf pos m).length = m := extract_length _ _ _ (by omega)
  exact List.append_inj h (by rw [h1, hx])

theorem variants_walk (buf : List Nat) :
    ∀ i (ts : Ty), i < numVariants ts → ∀ (f p : Nat) (ctx : ArchiveContext),
      run (f + (i + 1)) buf (.variants ts i p) ctx =
        run f buf (.ty (variantTy ts i) p) ctx := by
  intro i
  induction i with
  | zero =>
    intro ts h f p ctx
    cases ts
    case enumCons t rest => simp only [run, variantTy]
    all_goals exact absurd h (by simp [numVariants])
  | succ i ih =>
    intro ts h f p ctx
    cases ts
    case enumCons t rest =>
      have h' : i < numVariants rest := by
        simp only [numVariants] at h
        omega
      have step : run (f + (i + 1) + 1) buf
          (.variants (.enumCons t rest) (i + 1) p) ctx =
          run (f + (i + 1)) buf (.variants rest i p) ctx := by
        simp only [run]
      rw [show f + (i + 1 + 1) = f + (i + 1) + 1 by omega, step,
        ih rest h' f p ctx]
      simp only [variantTy]
    all_goals exact absurd h (by simp [numVariants])

/-- Main round-trip lemma: a well-typed value whose inline bytes sit at
an aligned, in-bounds position of the buffer and whose dependents are
correctly arranged validates successfully from any context whose tracked
ranges avoid the value's claims, returns exactly the original value,
restores the ancestor stack, and commits only the value's claims. -/
theorem run_roundtrip {buf : List Nat} (hbuf : buf.length < 2147483648) :
    ∀ v {t : Ty} {r : Res} {pos : Nat} {ctx : ArchiveContext} {fuel : Nat},
      HasTy v t →
      ArrangedDeps buf t v r →
      extract buf pos (sizeOfTy t) = inlineBytes t v r pos →
      pos + sizeOfTy t ≤ buf.length →
      pos % 4 = 0 →
      vfuel v ≤ fuel →
      (∀ c ∈ claimsOf t v r, ∀ s ∈ rangesOf ctx, c.intersects s = false) →
      pairwiseDisjointB (claimsOf t v r) = true →
      ∃ cs, run fuel buf (.ty t pos) ctx =
          .ok v ⟨ctx.ancestors, cs ++ ctx.committed⟩ ∧
        ∀ c ∈ cs, c ∈ claimsOf t v r := by
  intro v
  induction v with
  | vu32 n =>
    intro t r pos ctx fuel h ha hx hb hal hf hdis hpw
    cases h with
    | u32C hn =>
      obtain ⟨f, rfl⟩ : ∃ f, fuel = f + 1 := ⟨fuel - 1, by
        simp only [vfuel] at hf
        omega⟩
      have hb' : pos + 4 ≤ buf.length := by simpa [sizeOfTy] using hb
      have hx' : extract buf pos 4 = natLE4 n := by
        simpa [sizeOfTy, inlineBytes] using hx
      have hcp : checkPrim buf.length 4 4 pos = .ok () :=
        checkPrim_ok_iff.mpr ⟨by omega, by omega, hal⟩
      have hrd := readLE4_of_extract hx' hn
      refine ⟨[], ?_, by simp⟩
      simp only [run, hcp, hrd]
      simp
  | vstr bs =>
    intro t r pos ctx fuel h ha hx hb hal hf hdis hpw
    cases h with
    | strC hbytes hlen =>
      cases r <;> simp only [ArrangedDeps] at ha
      rename_i tgt
      obtain ⟨haX, haB⟩ := ha
      obtain ⟨f, rfl⟩ : ∃ f, fuel = f + 1 := ⟨fuel - 1, by
        simp only [vfuel] at hf
        omega⟩
      have hb' : pos + 8 ≤ buf.length := by simpa [sizeOfTy] using hb
      have hx' : extract buf pos (4 + 4) =
          encodeI32 ((tgt : Int) - (pos : Int)) ++ natLE4 bs.length := by
        simpa [sizeOfTy, inlineBytes] using hx
      obtain ⟨hrel, hcnt⟩ := extract_split_eq hx' (by simp [encodeI32, natLE4])
        (by omega)
      obtain ⟨m, hm, hmI⟩ := decodeI32_of_extract (x := (tgt : Int) - pos)
        (by omega) (by omega) hrel
      have hcnt' := readLE4_of_extract hcnt hlen
      have hcp : checkPrim buf.length 8 4 pos = .ok () :=
        checkPrim_ok_iff.mpr ⟨by omega, by omega, hal⟩
      have hres : resolve buf.length pos (toI32 m) = .ok tgt := by
        rw [hmI]
        exact resolve_self (by omega)
      have hif : ¬(buf.length < tgt + bs.length) := by omega
      have hent := enter_ok_of_disjoint ctx ⟨tgt, tgt + bs.length⟩
        (fun s hs => hdis _ (by simp [claimsOf]) s hs)
      refine ⟨[⟨tgt, tgt + bs.length⟩], ?_, by simp [claimsOf]⟩
      simp only [run, hcp, hm, hcnt', hres, if_neg hif, hent, haX]
      simp [exitClaim]
  | vnone =>
    intro t r pos ctx fuel h ha hx hb hal hf hdis hpw
    cases h with
    | @noneC t' =>
      obtain ⟨f, rfl⟩ : ∃ f, fuel = f + 1 := ⟨fuel - 1, by
        simp only [vfuel] at hf
        omega⟩
      have hb' : pos + (4 + sizeOfTy t') ≤ buf.length := by
        simpa [sizeOfTy] using hb
      have hx' : extract buf pos (4 + sizeOfTy t') =
          natLE4 0 ++ List.replicate (sizeOfTy t') 0 := by
        simpa [sizeOfTy, inlineBytes] using hx
      obtain ⟨h1, h2⟩ := extract_split_eq hx' (by simp [natLE4]) (by omega)
      have hrd := readLE4_of_extract h1 (by norm_num)
      have hcp : checkPrim buf.length 4 4 pos = .ok () :=
        checkPrim_ok_iff.mpr ⟨by omega, by omega, hal⟩
      refine ⟨[], ?_, by simp⟩
      simp only [run, hcp, hrd]
      simp
  | vsome v' ih =>
    intro t r pos ctx fuel h ha hx hb hal hf hdis hpw
    cases h with
    | @someC _ t' hv =>
      cases r <;> simp only [ArrangedDeps] at ha
      rename_i r'
      obtain ⟨f, rfl⟩ : ∃ f, fuel = f + 1 := ⟨fuel - 1, by
        simp only [vfuel] at hf
        omega⟩
      have hb' : pos + (4 + sizeOfTy t') ≤ buf.length := by
        simpa [sizeOfTy] using hb
      have hx' : extract buf pos (4 + sizeOfTy t') =
          natLE4 1 ++ inlineBytes t' v' r' (pos + 4) := by
        simpa [sizeOfTy, inlineBytes] using hx
      obtain ⟨h1, h2⟩ := extract_split_eq hx' (by simp [natLE4]) (by omega)
      have hrd := readLE4_of_extract h1 (by norm_num)
      have hcp : checkPrim buf.length 4 4 pos = .ok () :=
        checkPrim_ok_iff.mpr ⟨by omega, by omega, hal⟩
      simp only [claimsOf] at hdis hpw
      obtain ⟨cs, hrun, hsub⟩ := ih hv ha h2 (by omega) (by omega)
        (show vfuel v' ≤ f by simp only [vfuel] at hf; omega) hdis hpw
      refine ⟨cs, ?_, hsub⟩
      simp only [run, hcp, hrd, hrun]
      simp
  | vbox v' ih =>
    intro t r pos ctx fuel h ha hx hb hal hf hdis hpw
    cases h with
    | @boxC _ t' hv =>
      cases r <;> simp only [ArrangedDeps] at ha
      rename_i tgt r'
      obtain ⟨haInner, haX, haAl, haB⟩ := ha
      obtain ⟨f, rfl⟩ : ∃ f, fuel = f + 1 := ⟨fuel - 1, by
        simp only [vfuel] at hf
        omega⟩
      have hb' : pos + 4 ≤ buf.length := by simpa [sizeOfTy] using hb
      have hx' : extract buf pos 4 = encodeI32 ((tgt : Int) - (pos : Int)) := by
        simpa [sizeOfTy, inlineBytes] using hx
      obtain ⟨m, hm, hmI⟩ := decodeI32_of_extract (x := (tgt : Int) - pos)
        (by omega) (by omega) hx'
      have hcp : checkPrim buf.length 4 4 pos = .ok () :=
        checkPrim_ok_iff.mpr ⟨by omega, by omega, hal⟩
      have hres : resolve buf.length pos (toI32 m) = .ok tgt := by
        rw [hmI]
        exact resolve_self (by omega)
      have hif : ¬(buf.length < tgt + sizeOfTy t') := by omega
      simp only [claimsOf] at hdis hpw
      rw [pairwiseDisjointB, Bool.and_eq_true] at hpw
      obtain ⟨hpw1, hpw2⟩ := hpw
      have hent := enter_ok_of_disjoint ctx ⟨tgt, tgt + sizeOfTy t'⟩
        (fun s hs => hdis _ (List.mem_cons_self _ _) s hs)
      have hdis' : ∀ c ∈ claimsOf t' v' r',
          ∀ s ∈ rangesOf ⟨⟨tgt, tgt + sizeOfTy t'⟩ :: ctx.ancestors,
            ctx.committed⟩, c.intersects s = false := by
        intro c hc s hs
        rw [show rangesOf ⟨⟨tgt, tgt + sizeOfTy t'⟩ :: ctx.ancestors,
          ctx.committed⟩ = ⟨tgt, tgt + sizeOfTy t'⟩ :: rangesOf ctx from rfl,
          List.mem_cons] at hs
        rcases hs with rfl | hs
        · have := List.all_eq_true.mp hpw1 c hc
          rw [Bool.not_eq_true'] at this
          rw [intersects_symm]
          exact this
        · exact hdis c (List.mem_cons_of_mem _ hc) s hs
      obtain ⟨cs, hrun, hsub⟩ := ih hv haInner haX haB haAl
        (show vfuel v' ≤ f by simp only [vfuel] at hf; omega) hdis' hpw2
      refine ⟨⟨tgt, tgt + sizeOfTy t'⟩ :: cs, ?_, ?_⟩
      · simp only [run, hcp, hm, hres, if_neg hif, hent, hrun]
        simp [exitClaim]
      · intro c hc
        simp only [claimsOf]
        rcases List.mem_cons.mp hc with rfl | hc
        · exact List.mem_cons_self _ _
        · exact List.mem_cons_of_mem _ (hsub c hc)
  | vvec vs ih =>
    intro t r pos ctx fuel h ha hx hb hal hf hdis hpw
    cases h with
    | @vecC _ t' n hvs hn =>
      have hvv := hasTy_repTy_vlen _ hvs
      rw [← hvv] at hvs
      cases r <;> simp only [ArrangedDeps] at ha
      rename_i tgt rs
      obtain ⟨haInner, haX, haAl, haB⟩ := ha
      obtain ⟨f, rfl⟩ : ∃ f, fuel = f + 1 := ⟨fuel - 1, by
        simp only [vfuel] at hf
        omega⟩
      have hb' : pos + 8 ≤ buf.length := by simpa [sizeOfTy] using hb
      have hx' : extract buf pos (4 + 4) =
          encodeI32 ((tgt : Int) - (pos : Int)) ++ natLE4 (vlen vs) := by
        simpa [sizeOfTy, inlineBytes] using hx
      obtain ⟨hrel, hcnt⟩ := extract_split_eq hx' (by simp [encodeI32, natLE4])
        (by omega)
      obtain ⟨m, hm, hmI⟩ := decodeI32_of_extract (x := (tgt : Int) - pos)
        (by omega) (by omega) hrel
      have hcnt' := readLE4_of_extract hcnt (by omega)
      have hcp : checkPrim buf.length 8 4 pos = .ok () :=
        checkPrim_ok_iff.mpr ⟨by omega, by omega, hal⟩
      have hres : resolve buf.length pos (toI32 m) = .ok tgt := by
        rw [hmI]
        exact resolve_self (by omega)
      have hif : ¬(buf.length < tgt + vlen vs * sizeOfTy t') := by omega
      simp only [claimsOf] at hdis hpw
      rw [pairwiseDisjointB, Bool.and_eq_true] at hpw
      obtain ⟨hpw1, hpw2⟩ := hpw
      have hent := enter_ok_of_disjoint ctx ⟨tgt, tgt + vlen vs * sizeOfTy t'⟩
        (fun s hs => hdis _ (List.mem_cons_self _ _) s hs)
      have hdis' : ∀ c ∈ claimsOf (repTy t' (vlen vs)) vs rs,
          ∀ s ∈ rangesOf ⟨⟨tgt, tgt + vlen vs * sizeOfTy t'⟩ :: ctx.ancestors,
            ctx.committed⟩, c.intersects s = false := by
        intro c hc s hs
        rw [show rangesOf ⟨⟨tgt, tgt + vlen vs * sizeOfTy t'⟩ :: ctx.ancestors,
          ctx.committed⟩ = ⟨tgt, tgt + vlen vs * sizeOfTy t'⟩ :: rangesOf ctx
          from rfl, List.mem_cons] at hs
        rcases hs with rfl | hs
        · have := List.all_eq_true.mp hpw1 c hc
          rw [Bool.not_eq_true'] at this
          rw [intersects_symm]
          exact this
        · exact hdis c (List.mem_cons_of_mem _ hc) s hs
      have haX' : extract buf tgt (sizeOfTy (repTy t' (vlen vs))) =
          inlineBytes (repTy t' (vlen vs)) vs rs tgt := by
        rw [sizeOfTy_repTy]
        exact haX
      have haB' : tgt + sizeOfTy (repTy t' (vlen vs)) ≤ buf.length := by
        rw [sizeOfTy_repTy]
        exact haB
      obtain ⟨cs, hrun, hsub⟩ := ih hvs haInner haX' haB' haAl
        (show vfuel vs ≤ f by simp only [vfuel] at hf; omega) hdis' hpw2
      refine ⟨⟨tgt, tgt + vlen vs * sizeOfTy t'⟩ :: cs, ?_, ?_⟩
      · simp only [run, hcp, hm, hcnt', hres, if_neg hif, hent, hrun]
        simp [exitClaim]
      · intro c hc
        simp only [claimsOf]
        rcases List.mem_cons.mp hc with rfl | hc
        · exact List.mem_cons_self _ _
        · exact List.mem_cons_of_mem _ (hsub c hc)
  | vnil =>
    intro t r pos ctx fuel h ha hx hb hal hf hdis hpw
    cases h
    obtain ⟨f, rfl⟩ : ∃ f, fuel = f + 1 := ⟨fuel - 1, by
      simp only [vfuel] at hf
      omega⟩
    have hb' : pos ≤ buf.length := by simpa [sizeOfTy] using hb
    refine ⟨[], ?_, by simp⟩
    simp only [run, if_neg (by omega : ¬(buf.length < pos))]
    simp
  | vcons v' vs ihv ihvs =>
    intro t r pos ctx fuel h ha hx hb hal hf hdis hpw
    cases h with
    | @consC _ t1 _ ts hv hvs htail =>
      cases r <;> simp only [ArrangedDeps] at ha
      rename_i r1 rs
      obtain ⟨ha1, ha2⟩ := ha
      obtain ⟨f, rfl⟩ : ∃ f, fuel = f + 1 := ⟨fuel - 1, by
        simp only [vfuel] at hf
        omega⟩
      have hb' : pos + (sizeOfTy t1 + sizeOfTy ts) ≤ buf.length := by
        simpa [sizeOfTy] using hb
      have hx' : extract buf pos (sizeOfTy t1 + sizeOfTy ts) =
          inlineBytes t1 v' r1 pos ++
            inlineBytes ts vs rs (pos + sizeOfTy t1) := by
        simpa [sizeOfTy, inlineBytes] using hx
      obtain ⟨h1, h2⟩ := extract_split_eq hx'
        (inlineBytes_length v' hv ha1 pos) (by omega)
      simp only [claimsOf] at hdis hpw
      rw [pairwiseDisjointB_append_iff] at hpw
      obtain ⟨hpw1, hpw2, hcross⟩ := hpw
      obtain ⟨cs1, hrun1, hsub1⟩ := ihv hv ha1 h1 (by omega) hal
        (show vfuel v' ≤ f by simp only [vfuel] at hf; omega)
        (fun c hc s hs => hdis c (List.mem_append_left _ hc) s hs) hpw1
      have hmod := sizeOfTy_mod4 t1
      have hdis2 : ∀ c ∈ claimsOf ts vs rs,
          ∀ s ∈ rangesOf ⟨ctx.ancestors, cs1 ++ ctx.committed⟩,
            c.intersects s = false := by
        intro c hc s hs
        rw [show rangesOf ⟨ctx.ancestors, cs1 ++ ctx.committed⟩ =
          ctx.ancestors ++ (cs1 ++ ctx.committed) from rfl] at hs
        rw [List.mem_append] at hs
        rcases hs with hs | hs
        · exact hdis c (List.mem_append_right _ hc) s
            (by rw [rangesOf, List.mem_append]; exact Or.inl hs)
        · rw [List.mem_append] at hs
          rcases hs with hs | hs
          · rw [intersects_symm]
            exact hcross s (hsub1 s hs) c hc
          · exact hdis c (List.mem_append_right _ hc) s
              (by rw [rangesOf, List.mem_append]; exact Or.inr hs)
      obtain ⟨cs2, hrun2, hsub2⟩ := ihvs hvs ha2 h2 (by omega)
        (by omega)
        (show vfuel vs ≤ f by simp only [vfuel] at hf; omega) hdis2 hpw2
      refine ⟨cs2 ++ cs1, ?_, ?_⟩
      · simp only [run, hrun1, hrun2]
        simp
      · intro c hc
        rw [List.mem_append] at hc
        rcases hc with hc | hc
        · exact List.mem_append_right _ (hsub2 c hc)
        · exact List.mem_append_left _ (hsub1 c hc)
  | vtag i pv ih =>
    intro t r pos ctx fuel h ha hx hb hal hf hdis hpw
    cases r <;> simp only [ArrangedDeps] at ha
    rename_i r'
    have hp := hasTy_tag_payload i h
    have hvn := hasTy_tag_lt_num i h
    have hil : i < 4294967296 := hasTy_tag_lt h
    have hvsz := variant_size_le i h
    obtain ⟨t1, rest, rfl⟩ : ∃ t1 rest, t = .enumCons t1 rest := by
      cases h <;> exact ⟨_, _, rfl⟩
    obtain ⟨f, rfl⟩ : ∃ f, fuel = f + 1 := ⟨fuel - 1, by
      simp only [vfuel] at hf
      omega⟩
    have hfp : i + 1 + vfuel pv ≤ f := by
      simp only [vfuel] at hf
      omega
    have hS4 : 4 + sizeOfTy (variantTy (.enumCons t1 rest) i) ≤
        sizeOfTy (.enumCons t1 rest) := hvsz
    have hx' : extract buf pos
        (4 + (sizeOfTy (.enumCons t1 rest) - 4)) =
        natLE4 i ++ (inlineBytes (variantTy (.enumCons t1 rest) i) pv r'
          (pos + 4) ++
          List.replicate (sizeOfTy (.enumCons t1 rest) -
            (4 + sizeOfTy (variantTy (.enumCons t1 rest) i))) 0) := by
      rw [show 4 + (sizeOfTy (.enumCons t1 rest) - 4) =
        sizeOfTy (.enumCons t1 rest) by omega]
      rw [hx]
      simp [inlineBytes]
    obtain ⟨h1, h2'⟩ := extract_split_eq hx' (by simp [natLE4]) (by omega)
    have hlenP := inlineBytes_length pv hp ha (pos + 4)
    have h2'' : extract buf (pos + 4)
        (sizeOfTy (variantTy (.enumCons t1 rest) i) +
          (sizeOfTy (.enumCons t1 rest) -
            (4 + sizeOfTy (variantTy (.enumCons t1 rest) i)))) =
        inlineBytes (variantTy (.enumCons t1 rest) i) pv r' (pos + 4) ++
          List.replicate (sizeOfTy (.enumCons t1 rest) -
            (4 + sizeOfTy (variantTy (.enumCons t1 rest) i))) 0 := by
      rw [show sizeOfTy (variantTy (.enumCons t1 rest) i) +
        (sizeOfTy (.enumCons t1 rest) -
          (4 + sizeOfTy (variantTy (.enumCons t1 rest) i))) =
        sizeOfTy (.enumCons t1 rest) - 4 by omega]
      exact h2'
    obtain ⟨h2, _⟩ := extract_split_eq h2'' hlenP (by omega)
    have hrd := readLE4_of_extract h1 hil
    have hcp : checkPrim buf.length 4 4 pos = .ok () :=
      checkPrim_ok_iff.mpr ⟨by omega, by omega, hal⟩
    simp only [claimsOf] at hdis hpw
    obtain ⟨cs, hrun, hsub⟩ := ih hp ha h2 (by omega) (by omega)
      (show vfuel pv ≤ f - (i + 1) by omega) hdis hpw
    refine ⟨cs, ?_, hsub⟩
    simp only [run, hcp, hrd]
    rw [show f = f - (i + 1) + (i + 1) by omega,
      variants_walk buf i _ hvn _ _ _, hrun]
  | vnodeNil =>
    intro t r pos ctx fuel h ha hx hb hal hf hdis hpw
    cases h
  | vnodeCons v' ih =>
    intro t r pos ctx fuel h ha hx hb hal hf hdis hpw
    cases h

theorem archive_eq (t : Ty) (v : Value) :
    archive t v =
      (alignTo4 (writeDeps t v []).1 ++
        inlineBytes t v (writeDeps t v []).2
          (alignTo4 (writeDeps t v []).1).length,
       (alignTo4 (writeDeps t v []).1).length) := rfl

/-- C5: round-trip — every value the collaborator writer can archive
(unit records, multi-field records and tuple-records given as field
chains, tagged unions, strings, boxed values and sequences, in any
nesting) validates successfully at the returned root position of the
written buffer, and the typed view handed back is exactly the archived
value, so all its field values agree with the original's. -/
theorem archived_roundtrip :
    ∀ (t : Ty) (v : Value), HasTy v t →
      (archive t v).1.length < 2147483648 →
      ∃ fuel ctx, checkArchive fuel (archive t v).1 t (archive t v).2 =
        .ok v ctx := by
  intro t v h hlen
  rw [archive_eq] at hlen ⊢
  obtain ⟨hext, harr, hclaims, hpw⟩ := writeDeps_spec v h []
  set w := writeDeps t v [] with hw
  set pos := (alignTo4 w.1).length with hpos
  set buf := alignTo4 w.1 ++ inlineBytes t v w.2 pos with hbufdef
  have hlenI := inlineBytes_length v h harr pos
  have hbufL : buf.length = pos + sizeOfTy t := by
    rw [hbufdef]
    simp [hlenI]
  have harr' : ArrangedDeps buf t v w.2 :=
    arrangedDeps_mono (bufExt_trans (alignTo4_ext w.1) (bufExt_append _ _)) v harr
  have hx : extract buf pos (sizeOfTy t) = inlineBytes t v w.2 pos := by
    rw [hbufdef, ← hlenI, hpos]
    exact extract_append_self _ _
  have hroot : ∀ c ∈ claimsOf t v w.2,
      ∀ s ∈ rangesOf ⟨[⟨pos, pos + sizeOfTy t⟩], []⟩, c.intersects s = false := by
    intro c hc s hs
    simp only [rangesOf, List.append_nil, List.mem_singleton] at hs
    subst hs
    apply intersects_false_of_stop_le
    exact le_trans (hclaims c hc).2 (bufExt_length (alignTo4_ext w.1))
  obtain ⟨cs, hrun, hsub⟩ := run_roundtrip hlen v h harr' hx
    (le_of_eq hbufL.symm)
    (by rw [hpos]; exact alignTo4_mod _) (le_refl _) hroot hpw
  exact ⟨vfuel v, _, by rw [checkArchive_eq, hrun]⟩

/-- C5 witness: the struct value of the `derive_struct` test — a scalar,
a string and a boxed vector of strings — round-trips through the writer
and the validator. -/
theorem archived_roundtrip_witness :
    ∃ fuel ctx, checkArchive fuel (archive testTy testVal).1 testTy
      (archive testTy testVal).2 = .ok testVal ctx := by
  apply archived_roundtrip
  · exact HasTy.consC (HasTy.u32C (by norm_num))
      (HasTy.consC (HasTy.strC (by decide) (by decide))
        (HasTy.consC
          (HasTy.boxC (@HasTy.vecC
            (.vcons (.vstr [121, 101, 115]) (.vcons (.vstr [110, 111]) .vnil))
            .str 2
            (HasTy.consC (HasTy.strC (by decide) (by decide))
              (HasTy.consC (HasTy.strC (by decide) (by decide))
                HasTy.unitC (by decide)) (by decide))
            (by norm_num)))
          HasTy.unitC (by decide)) (by decide)) (by decide)
  · decide

end Rkyv
